import Mathlib

/-!
Shallow embedding of `stack.py` (stacked branch tracker).

The persisted tracking structure is a `networkx.DiGraph` whose nodes are
branch names carrying attributes `sha`, optional `base`, optional
`pull_url`, and whose directed edges run parent → child.  We model it as
ordered association lists (networkx preserves node and adjacency insertion
order).  External collaborators (git subprocesses, the GitHub API) are
modeled as an oracle `Env`; each operator records the external calls it
issues in a trace of `Eff` values.  A Python exception aborts the current
invocation before `read_graph` rewrites `.stack.json`; we model an
exception as the `Res.crashed` constructor carrying the in-memory graph at
the moment the exception was raised (that graph is then discarded by
`runFile`, exactly as the aborted process never persists it).
-/

/-- Attributes of one tracked branch node: `sha` (current tip), optional
`base` (commit the branch last diverged from), optional `pull_url`.
Mirrors the node attribute dict used throughout `stack.py`. -/
structure NodeAttrs where
  sha : String
  base : Option String := none
  pull_url : Option String := none
deriving Repr, DecidableEq

/-- The tracking graph: nodes as an insertion-ordered association list from
branch name to attributes, edges as an insertion-ordered list of
(source, target) pairs.  Mirrors `networkx.DiGraph` as used by `stack.py`. -/
structure Graph where
  nodes : List (String × NodeAttrs)
  edges : List (String × String)
deriving Repr, DecidableEq

/-- The list of node names, in insertion order. -/
def nodeKeys (g : Graph) : List String := g.nodes.map Prod.fst

/-- Membership test for a node name (`n in graph.nodes`). -/
def hasNode (g : Graph) (n : String) : Bool := g.nodes.any (fun p => p.1 == n)

/-- Attribute lookup (`graph.nodes[n]`), `none` when the node is absent
(where Python raises `KeyError`). -/
def lookupNode (g : Graph) (n : String) : Option NodeAttrs :=
  (g.nodes.find? (fun p => p.1 == n)).map Prod.snd

/-- `graph.nodes[n]["sha"] = v` on an existing node. -/
def setSha (g : Graph) (n v : String) : Graph :=
  { g with nodes := g.nodes.map (fun p => if p.1 == n then (p.1, { p.2 with sha := v }) else p) }

/-- `graph.nodes[n]["base"] = v` on an existing node. -/
def setBase (g : Graph) (n : String) (v : Option String) : Graph :=
  { g with nodes := g.nodes.map (fun p => if p.1 == n then (p.1, { p.2 with base := v }) else p) }

/-- `graph.nodes[n]["pull_url"] = v` on an existing node. -/
def setPullUrl (g : Graph) (n : String) (v : Option String) : Graph :=
  { g with nodes := g.nodes.map (fun p => if p.1 == n then (p.1, { p.2 with pull_url := v }) else p) }

/-- `graph.add_node(n, sha=v)` as issued by `read_graph` for the trunk:
update `sha` on an existing node (keeping its other attributes), else
append a fresh node with only `sha` set. -/
def addNodeSha (g : Graph) (n v : String) : Graph :=
  if hasNode g n then setSha g n v
  else { g with nodes := g.nodes ++ [(n, { sha := v })] }

/-- `graph.add_node(n, sha=s, base=b)` as issued by `add_branch`. -/
def addNodeShaBase (g : Graph) (n s : String) (b : Option String) : Graph :=
  if hasNode g n then setBase (setSha g n s) n b
  else { g with nodes := g.nodes ++ [(n, { sha := s, base := b })] }

/-- `graph.predecessors(n)`: sources of edges into `n`, in edge insertion
order. -/
def preds (g : Graph) (n : String) : List String :=
  (g.edges.filter (fun e => e.2 == n)).map Prod.fst

/-- `graph.successors(n)`: targets of edges out of `n`, in edge insertion
order. -/
def succs (g : Graph) (n : String) : List String :=
  (g.edges.filter (fun e => e.1 == n)).map Prod.snd

/-- `graph.add_edge(a, b)`: a no-op when the edge already exists (networkx
digraphs have no parallel edges), else appended. Both endpoints already
exist at every call site reached by `stack.py`. -/
def addEdge (g : Graph) (a b : String) : Graph :=
  if g.edges.contains (a, b) then g else { g with edges := g.edges ++ [(a, b)] }

/-- `graph.remove_edge(a, b)`: removes the edge, `none` when it is absent
(where networkx raises). -/
def removeEdge (g : Graph) (a b : String) : Option Graph :=
  if g.edges.contains (a, b) then some { g with edges := g.edges.erase (a, b) }
  else none

/-- `graph.remove_node(n)`: drops the node and every incident edge. -/
def removeNode (g : Graph) (n : String) : Graph :=
  { nodes := g.nodes.filter (fun p => !(p.1 == n)),
    edges := g.edges.filter (fun e => !(e.1 == n) && !(e.2 == n)) }

/-- One external call issued by an invocation: git subprocesses and GitHub
API requests, in program order. -/
inductive Eff where
  | readGraphFile
  | writeGraphFile
  | revParseMain
  | revParseHead
  | gitMergeBase (a b : String)
  | gitRevList
  | gitRemoteV
  | gitRebase (newBase : String)
  | gitRebaseOnto (newBase oldBase branch : String)
  | gitCheckout (branch : String)
  | prCreate (base head title : String) (draft : Bool)
  | prUpdate (url base head : String)
deriving Repr, DecidableEq

/-- Oracle for the external world consulted during one invocation.
`tip b` is the sha `git rev-parse HEAD` reports while branch `b` is checked
out and before `b` itself has been rebased in this invocation; the new tip
read immediately after a successful `git rebase --onto` is delivered by
`rebaseOnto` (`none` models a conflicting rebase, i.e. a non-zero exit). -/
structure Env where
  stackyStacky : Bool
  mainBranch : String × String
  headBranch0 : String
  tip : String → String
  mergeBaseOf : String → String → String
  rebaseOk : String → Bool
  rebaseOnto : String → String → String → Option String
  shaList : List String
  originRepo : Option String
  githubApi : String
  createResp : Bool → Nat × String
  updateStatus : Nat

/-- Outcome of one operator: normal return, or a Python exception
(`crashed`) carrying the in-memory graph at the moment it was raised.
Both carry the trace of external calls issued so far. -/
inductive Res where
  | ok (g : Graph) (tr : List Eff)
  | crashed (g : Graph) (tr : List Eff)
deriving Repr, DecidableEq

/-- The in-memory graph carried by an operator outcome. -/
def Res.graph : Res → Graph
  | .ok g _ => g
  | .crashed g _ => g

/-- The external-call trace carried by an operator outcome. -/
def Res.trace : Res → List Eff
  | .ok _ tr => tr
  | .crashed _ tr => tr

/-- `update_branch` (stack.py lines 98-102): record the current tip, then
recompute `base` as the merge-base with each predecessor (exactly one under
the in-degree invariant; none for the trunk). -/
def updateBranch (env : Env) (g : Graph) (head headSha : String) : Graph × List Eff :=
  let g1 := setSha g head headSha
  ((preds g1 head).foldl (fun gg p => setBase gg head (some (env.mergeBaseOf p head))) g1,
   (preds g1 head).map (fun p => Eff.gitMergeBase p head))

/-- `restack_branch` (stack.py lines 105-111): fail on a stale recorded
sha, require exactly one parent, run `git rebase <parent sha>` (a raised
`CalledProcessError` aborts), then set `base` to the parent's sha. -/
def restackBranch (env : Env) (g : Graph) (head headSha : String) : Res :=
  match lookupNode g head with
  | none => .crashed g []
  | some a =>
    if a.sha ≠ headSha then .crashed g []
    else
      match preds g head with
      | [p] =>
        match lookupNode g p with
        | none => .crashed g []
        | some pa =>
          if env.rebaseOk pa.sha then .ok (setBase g head (some pa.sha)) [Eff.gitRebase pa.sha]
          else .crashed g [Eff.gitRebase pa.sha]
      | _ => .crashed g []

mutual
/-- `move_branch` (stack.py lines 114-139): fail on a stale recorded sha,
require exactly one parent, read `base` (`KeyError` when absent) and the
new parent's sha, then run the range-qualified
`git rebase --onto <new base> <old base> <branch>`.  On a non-zero exit the
source logs a warning and falls through: `base` is still assigned, after
which the read of `new_head_sha` (assigned only on the success path) raises
`UnboundLocalError` — modeled as `crashed` with `base` already mutated.  On
success the re-read tip and new base are recorded, the old parent edge is
removed, the new parent edge added, and every child is checked out and
recursively moved onto this node before the original branch is checked out
again.  `fuel` bounds the recursion depth (exhaustion models Python's
`RecursionError`, which likewise aborts the invocation). -/
def moveBranch (env : Env) (fuel : Nat) (g : Graph) (head headSha newParent : String) : Res :=
  match fuel with
  | 0 => .crashed g []
  | fuel' + 1 =>
    match lookupNode g head with
    | none => .crashed g []
    | some a =>
      if a.sha ≠ headSha then .crashed g []
      else
        match preds g head with
        | [p] =>
          match a.base with
          | none => .crashed g []
          | some oldBase =>
            match lookupNode g newParent with
            | none => .crashed g []
            | some npa =>
              match env.rebaseOnto npa.sha oldBase head with
              | none =>
                .crashed (setBase g head (some npa.sha)) [Eff.gitRebaseOnto npa.sha oldBase head]
              | some newTip =>
                let g1 := setSha (setBase g head (some npa.sha)) head newTip
                match removeEdge g1 p head with
                | none => .crashed g1 [Eff.gitRebaseOnto npa.sha oldBase head]
                | some g2 =>
                  let g3 := addEdge g2 newParent head
                  match moveKids env fuel' (succs g3 head) head g3
                      [Eff.gitRebaseOnto npa.sha oldBase head] with
                  | .ok gf trf => .ok gf (trf ++ [Eff.gitCheckout head])
                  | .crashed gf trf => .crashed gf trf
        | _ => .crashed g []

/-- The cascade loop of `move_branch` (stack.py lines 134-137): for each
child, in recorded order, check it out, re-read its tip, and recursively
move it onto the just-moved node.  A crash in any child propagates. -/
def moveKids (env : Env) (fuel : Nat) (cs : List String) (parent : String)
    (g : Graph) (tr : List Eff) : Res :=
  match cs with
  | [] => .ok g tr
  | c :: rest =>
    match fuel with
    | 0 => .crashed g tr
    | fuel' + 1 =>
      let tr2 := tr ++ [Eff.gitCheckout c, Eff.revParseHead]
      match moveBranch env fuel' g c (env.tip c) parent with
      | .ok g' tr' => moveKids env fuel' rest parent g' (tr2 ++ tr')
      | .crashed g' tr' => .crashed g' (tr2 ++ tr')
end

/-- `add_branch` (stack.py lines 142-156): index existing nodes by sha
(later nodes win, as in the dict comprehension), and when the new tip
appears in `git rev-list HEAD`, add the node (base = that sha) and an edge
from the node whose sha matches the hook's reported parent sha (a missing
match raises `KeyError` after the node was already added). -/
def shaLookup (g : Graph) (s : String) : Option String :=
  ((g.nodes.map (fun p => (p.2.sha, p.1))).reverse.find? (fun q => q.1 == s)).map Prod.snd

/-- See `shaLookup`; this is the body of `add_branch`. -/
def addBranch (env : Env) (g : Graph) (parentSha head headSha : String) : Res :=
  if env.shaList.contains headSha then
    let g1 := addNodeShaBase g head headSha (some headSha)
    match shaLookup g parentSha with
    | none => .crashed g1 [Eff.gitRevList]
    | some u => .ok (addEdge g1 u head) [Eff.gitRevList]
  else .ok g [Eff.gitRevList]

/-- `urllib.parse.urljoin(base, rel)` restricted to the shapes that occur
here: an absolute `rel` (as returned by the real GitHub API) wins, a
path-absolute `rel` is appended to the configured API base. -/
def joinUrl (base rel : String) : String :=
  if rel.data.take 4 = "http".data then rel else base ++ rel

/-- `submit_pull_request` (stack.py lines 159-190): require exactly one
parent.  With a stored `pull_url`, PATCH it once retargeting head/base; a
status outside `range(200, 299)` raises.  Without one, require a matching
push remote, then POST first with `draft=true`; only when that draft
attempt returns 422 is a single non-draft POST issued; the `url` field of
the first response that is not a draft-422 is joined to the API base and
stored as `pull_url` (its status is never checked). -/
def submitPullRequest (env : Env) (g : Graph) (head : String) (title : Option String) : Res :=
  match preds g head with
  | [p] =>
    match lookupNode g head with
    | none => .crashed g []
    | some a =>
      match a.pull_url with
      | some pu =>
        if 200 ≤ env.updateStatus ∧ env.updateStatus < 299 then .ok g [Eff.prUpdate pu p head]
        else .crashed g [Eff.prUpdate pu p head]
      | none =>
        match env.originRepo with
        | none => .crashed g [Eff.gitRemoteV]
        | some _ =>
          let t := title.getD "Untitled Pull Request"
          let r1 := env.createResp true
          if r1.1 == 422 then
            let r2 := env.createResp false
            .ok (setPullUrl g head (some (joinUrl env.githubApi r2.2)))
              [Eff.gitRemoteV, Eff.prCreate p head t true, Eff.prCreate p head t false]
          else
            .ok (setPullUrl g head (some (joinUrl env.githubApi r1.2)))
              [Eff.gitRemoteV, Eff.prCreate p head t true]
  | _ => .crashed g []

/-- `forget_branch` (stack.py lines 193-198): refuse the active branch,
refuse any node with a child (the loop raises on the first one), otherwise
remove the node and its incident edges. -/
def forgetBranch (g : Graph) (head oldBranch : String) : Res :=
  if oldBranch == head then .crashed g []
  else
    match succs g oldBranch with
    | _ :: _ => .crashed g []
    | [] =>
      if hasNode g oldBranch then .ok (removeNode g oldBranch) []
      else .crashed g []

/-- The command surface of `stack.py` (the `Actions` enum). -/
inductive Act where
  | postCommit
  | postCheckout
  | restack
  | moveOnto
  | submit
  | forget
deriving Repr, DecidableEq

/-- Outcome of one whole invocation of `main`: `skipped` is the immediate
return when `STACKY_STACKY` is set (before the graph file is read and
before any external call); `completed g` means `read_graph` rewrote the
file with `g`; `crashed` means an exception aborted the invocation before
the file was rewritten, discarding the carried in-memory graph. -/
inductive RunRes where
  | skipped
  | completed (g : Graph) (tr : List Eff)
  | crashed (g : Graph) (tr : List Eff)
deriving Repr, DecidableEq

/-- The action dispatch of `main` (stack.py lines 210-227), after the
graph has been loaded, the trunk refreshed, and the active branch
synchronized into `g2`: each operator runs under `read_graph`, so a normal
return rewrites the file (`completed`) and an exception aborts without
rewriting (`crashed`). -/
def runAct (env : Env) (g2 : Graph) (head headSha : String) (action : Act)
    (args : List String) (fuel : Nat) (tr1 : List Eff) : RunRes :=
  let finish : Res → RunRes := fun r =>
    match r with
    | .ok gf trf => .completed gf (tr1 ++ trf ++ [Eff.writeGraphFile])
    | .crashed gf trf => .crashed gf (tr1 ++ trf)
  match action with
      | .restack =>
        if hasNode g2 head then finish (restackBranch env g2 head headSha)
        else .crashed g2 tr1
      | .moveOnto =>
        match args with
        | [np] =>
          if hasNode g2 np && hasNode g2 head then finish (moveBranch env fuel g2 head headSha np)
          else .crashed g2 tr1
        | _ => .crashed g2 tr1
      | .submit =>
        if hasNode g2 head then
          match args with
          | [] => finish (submitPullRequest env g2 head none)
          | [t] => finish (submitPullRequest env g2 head (some t))
          | _ => .crashed g2 tr1
        else .crashed g2 tr1
      | .forget =>
        match args with
        | [old] =>
          if hasNode g2 old && hasNode g2 head then finish (forgetBranch g2 head old)
          else .crashed g2 tr1
        | _ => .crashed g2 tr1
      | .postCheckout =>
        if hasNode g2 head then .completed g2 (tr1 ++ [Eff.writeGraphFile])
        else
          match args with
          | [pSha, isBranch] =>
            if isBranch == "1" then finish (addBranch env g2 pSha head headSha)
            else .completed g2 (tr1 ++ [Eff.writeGraphFile])
          | _ => .crashed g2 tr1
      | .postCommit => .completed g2 (tr1 ++ [Eff.writeGraphFile])

/-- The part of `main` after `read_graph` produced the refreshed graph
`g1`: record the current branch and tip, return at once when detached
(`HEAD`), else synchronize the active branch (`update_branch`, only when
tracked) and dispatch on the action. -/
def runBody (env : Env) (g1 : Graph) (action : Act) (args : List String)
    (fuel : Nat) (tr0 : List Eff) : RunRes :=
  let head := env.headBranch0
  let headSha := env.tip head
  if head == "HEAD" then .completed g1 (tr0 ++ [Eff.writeGraphFile])
  else
    let upd := if hasNode g1 head then updateBranch env g1 head headSha else (g1, [])
    runAct env upd.1 head headSha action args fuel (tr0 ++ upd.2)

/-- `main` (stack.py lines 201-229) together with the `read_graph` context
manager (lines 68-96).  The persisted file is modeled structurally as the
graph it encodes (the JSON layer is `saveJVal`/`loadJVal` below, proven a
faithful round trip).  `read_graph` loads the file or starts empty, adds
the trunk node with its current sha, runs the body, and rewrites the file
only when the body returns without an exception; the tree render is pure
logging and is not modeled. -/
def runMain (env : Env) (file : Option Graph) (action : Act) (args : List String)
    (fuel : Nat) : RunRes :=
  if env.stackyStacky then .skipped
  else
    let readTr : List Eff := match file with | some _ => [Eff.readGraphFile] | none => []
    let g0 : Graph := match file with | some f => f | none => ⟨[], []⟩
    let g1 := addNodeSha g0 env.mainBranch.1 env.mainBranch.2
    runBody env g1 action args fuel
      (readTr ++ [Eff.revParseMain, Eff.revParseHead, Eff.revParseHead])

/-- The graph file after one invocation: rewritten only on `completed`. -/
def runFile (env : Env) (file : Option Graph) (action : Act) (args : List String)
    (fuel : Nat) : Option Graph :=
  match runMain env file action args fuel with
  | .skipped => file
  | .completed g _ => some g
  | .crashed _ _ => file

/-- The external calls issued by one invocation. -/
def runTrace (env : Env) (file : Option Graph) (action : Act) (args : List String)
    (fuel : Nat) : List Eff :=
  match runMain env file action args fuel with
  | .skipped => []
  | .completed _ tr => tr
  | .crashed _ tr => tr

/-- The root nodes (in-degree zero), in node insertion order. -/
def rootNodes (g : Graph) : List String :=
  (nodeKeys g).filter (fun n => (g.edges.filter (fun e => e.2 == n)).isEmpty)

/-! ## The JSON layer of the Graph Store

`read_graph` persists via `json.dump(networkx.node_link_data(graph,
edges="edges"))` and loads via `networkx.node_link_graph(json.load(file),
edges="edges")`.  We model the JSON document as an abstract value tree
(text formatting such as the 2-space indentation carries no structure). -/

/-- A JSON value. -/
inductive JVal where
  | jnull
  | jbool (b : Bool)
  | jstr (s : String)
  | jarr (xs : List JVal)
  | jobj (fields : List (String × JVal))

/-- One entry of the `nodes` sequence produced by `node_link_data`: the
node's attribute dict (optional attributes present only when set) followed
by the `id` key. -/
def emitNode (p : String × NodeAttrs) : JVal :=
  .jobj ([("sha", JVal.jstr p.2.sha)]
    ++ (match p.2.base with | some b => [("base", JVal.jstr b)] | none => [])
    ++ (match p.2.pull_url with | some u => [("pull_url", JVal.jstr u)] | none => [])
    ++ [("id", JVal.jstr p.1)])

/-- One entry of the `edges` sequence produced by `node_link_data`. -/
def emitEdge (e : String × String) : JVal :=
  .jobj [("source", JVal.jstr e.1), ("target", JVal.jstr e.2)]

/-- `node_link_data(graph, edges="edges")` as dumped to `.stack.json`. -/
def saveJVal (g : Graph) : JVal :=
  .jobj [("directed", JVal.jbool true), ("multigraph", JVal.jbool false),
    ("graph", JVal.jobj []),
    ("nodes", JVal.jarr (g.nodes.map emitNode)),
    ("edges", JVal.jarr (g.edges.map emitEdge))]

/-- First value stored under key `k`. -/
def getField (fields : List (String × JVal)) (k : String) : Option JVal :=
  (fields.find? (fun q => q.1 == k)).map Prod.snd

/-- First string stored under key `k`. -/
def getStr (fields : List (String × JVal)) (k : String) : Option String :=
  match getField fields k with
  | some (.jstr s) => some s
  | _ => none

/-- Parse one `nodes` entry: the `id` key is required (`node_link_graph`
raises without it); a node lacking a `sha` attribute is represented with
sha `""` (such nodes never arise from `saveJVal`). -/
def parseNodeEntry (j : JVal) : Option (String × NodeAttrs) :=
  match j with
  | .jobj fields =>
    match getStr fields "id" with
    | some n => some (n, { sha := (getStr fields "sha").getD "",
                           base := getStr fields "base",
                           pull_url := getStr fields "pull_url" })
    | none => none
  | _ => none

/-- Parse one `edges` entry (`source` and `target` keys required). -/
def parseEdgeEntry (j : JVal) : Option (String × String) :=
  match j with
  | .jobj fields =>
    match getStr fields "source", getStr fields "target" with
    | some s, some t => some (s, t)
    | _, _ => none
  | _ => none

/-- `add_node` with full attributes, as replayed by `node_link_graph`: a
repeated id overwrites the attributes of the earlier entry. -/
def addLoadedNode (g : Graph) (p : String × NodeAttrs) : Graph :=
  if hasNode g p.1 then setPullUrl (setBase (setSha g p.1 p.2.sha) p.1 p.2.base) p.1 p.2.pull_url
  else { g with nodes := g.nodes ++ [p] }

/-- `add_edge` as replayed by `node_link_graph`: a referenced endpoint that
was not among the node entries is created with no attributes (sha `""`). -/
def addLoadedEdge (g : Graph) (e : String × String) : Graph :=
  let g1 := if hasNode g e.1 then g else { g with nodes := g.nodes ++ [(e.1, { sha := "" })] }
  let g2 := if hasNode g1 e.2 then g1 else { g1 with nodes := g1.nodes ++ [(e.2, { sha := "" })] }
  addEdge g2 e.1 e.2

/-- `node_link_graph(data, edges="edges")`: read the `nodes` and `edges`
sequences and replay them in order through `add_node` / `add_edge`. -/
def loadJVal (j : JVal) : Option Graph :=
  match j with
  | .jobj fields =>
    match getField fields "nodes", getField fields "edges" with
    | some (.jarr ns), some (.jarr es) =>
      match ns.mapM parseNodeEntry, es.mapM parseEdgeEntry with
      | some nodeRecs, some edgeRecs =>
        some (edgeRecs.foldl addLoadedEdge (nodeRecs.foldl addLoadedNode ⟨[], []⟩))
      | _, _ => none
    | _, _ => none
  | _ => none

/-! ## Directed paths, cycles, and the structural invariant -/

/-- The edge set of a graph, as a finite set. -/
def edgeFinset (g : Graph) : Finset (String × String) := g.edges.toFinset

/-- `pathOk s u l v`: starting at `u`, the successive nodes `l` are joined
by edges of `s` and the walk ends at `v` (so `l = []` means `u = v`). -/
def pathOk (s : Finset (String × String)) : String → List String → String → Prop
  | u, [], v => u = v
  | u, w :: l, v => (u, w) ∈ s ∧ pathOk s w l v

/-- `v` is reachable from `u` by a (possibly empty) walk in `s`. -/
def ReachStar (s : Finset (String × String)) (u v : String) : Prop :=
  ∃ l, pathOk s u l v

/-- `v` is reachable from `u` by a nonempty walk in `s`. -/
def ReachPlus (s : Finset (String × String)) (u v : String) : Prop :=
  ∃ w l, (u, w) ∈ s ∧ pathOk s w l v

/-- No nonempty walk returns to its start. -/
def AcyclicE (s : Finset (String × String)) : Prop :=
  ∀ x, ¬ ReachPlus s x x

/-- The structural invariant maintained for the persisted graph when every
invocation observes the same trunk branch name `t`: well-formed node and
edge lists, the trunk present with no `base` and in-degree zero, every
other node with in-degree exactly one, and no directed cycles. -/
structure GInv (t : String) (g : Graph) : Prop where
  keysNodup : (nodeKeys g).Nodup
  edgesNodup : g.edges.Nodup
  endpointsMem : ∀ e ∈ g.edges, e.1 ∈ nodeKeys g ∧ e.2 ∈ nodeKeys g
  trunkMem : t ∈ nodeKeys g
  trunkNoBase : ∀ a, lookupNode g t = some a → a.base = none
  trunkNoPreds : preds g t = []
  othersIndeg : ∀ n ∈ nodeKeys g, n ≠ t → (g.edges.filter (fun e => e.2 == n)).length = 1
  acyclic : AcyclicE (edgeFinset g)

/-- Graph-file states reachable by invocations that all observe trunk
branch `t` (starting from no file). -/
inductive ReachableFrom (t : String) : Option Graph → Prop where
  | init : ReachableFrom t none
  | step : ∀ (env : Env) (a : Act) (args : List String) (fuel : Nat) (fs : Option Graph),
      ReachableFrom t fs → env.mainBranch.1 = t → ReachableFrom t (runFile env fs a args fuel)

/-- Graph-file states reachable by arbitrary invocations (the trunk name
reported by the adapter may differ between runs, per the documented
main/master fallback), starting from no file. -/
inductive ReachableAny : Option Graph → Prop where
  | init : ReachableAny none
  | step : ∀ (env : Env) (a : Act) (args : List String) (fuel : Nat) (fs : Option Graph),
      ReachableAny fs → ReachableAny (runFile env fs a args fuel)

/-! ## Concrete instances used below -/

/-- A neutral oracle; each concrete scenario overrides the fields it
exercises. -/
def baseEnv : Env where
  stackyStacky := false
  mainBranch := ("main", "A")
  headBranch0 := "main"
  tip := fun _ => ""
  mergeBaseOf := fun _ _ => ""
  rebaseOk := fun _ => true
  rebaseOnto := fun _ _ _ => none
  shaList := []
  originRepo := none
  githubApi := "https://api.github.com"
  createResp := fun _ => (200, "")
  updateStatus := 200

/-- Trunk at `A2`; `feat` stacked on it, tip `B1`, recorded base `A1`. -/
def gC1 : Graph :=
  ⟨[("main", { sha := "A2" }), ("feat", { sha := "B1", base := some "A1" })],
   [("main", "feat")]⟩

/-- Oracle for the `gC1` move: `feat` is checked out at its recorded tip
and its range-qualified rebase succeeds with new tip `B2`. -/
def envC1 : Env :=
  { baseEnv with
    headBranch0 := "feat"
    tip := fun b => if b == "feat" then "B1" else ""
    rebaseOnto := fun _ _ br => if br == "feat" then some "B2" else none }

/-- `gC1` after `move_branch(feat, main)` (the parent is already `main`). -/
def gC1' : Graph :=
  ⟨[("main", { sha := "A2" }), ("feat", { sha := "B2", base := some "A2" })],
   [("main", "feat")]⟩

/-- Trunk at `A2`; `b1` stacked on it, tip `B1`, recorded base `A1`. -/
def gC2 : Graph :=
  ⟨[("main", { sha := "A2" }), ("b1", { sha := "B1", base := some "A1" })],
   [("main", "b1")]⟩

/-- Oracle under which every range-qualified rebase conflicts. -/
def envC2 : Env :=
  { baseEnv with
    headBranch0 := "b1"
    tip := fun b => if b == "b1" then "B1" else "" }

/-- The in-memory graph `move_branch` leaves behind when `b1`'s rebase
fails: `base` was still reassigned before the crash. -/
def gC2' : Graph :=
  ⟨[("main", { sha := "A2" }), ("b1", { sha := "B1", base := some "A2" })],
   [("main", "b1")]⟩

/-- Persisted file for the cascade-failure scenario: `main → a → b1 → b2`. -/
def fC3 : Graph :=
  ⟨[("main", { sha := "A" }), ("a", { sha := "A1", base := some "A" }),
    ("b1", { sha := "B1", base := some "A0" }), ("b2", { sha := "C1", base := some "B1" })],
   [("main", "a"), ("a", "b1"), ("b1", "b2")]⟩

/-- Oracle for the cascade-failure scenario: `b1` is checked out; its own
rebase onto trunk succeeds (new tip `B2`), but the cascaded rebase of its
child `b2` conflicts. -/
def envC3 : Env :=
  { baseEnv with
    headBranch0 := "b1"
    tip := fun b => if b == "b1" then "B1" else if b == "b2" then "C1" else ""
    mergeBaseOf := fun _ _ => "A0"
    rebaseOnto := fun _ _ br => if br == "b1" then some "B2" else none }

/-- The in-memory graph at the moment the cascaded rebase of `b2` failed:
`b1` has already been moved (new base `A`, new tip `B2`, rewired under
`main`) and `b2.base` was reassigned by the crashing frame. -/
def gC3mem : Graph :=
  ⟨[("main", { sha := "A" }), ("a", { sha := "A1", base := some "A" }),
    ("b1", { sha := "B2", base := some "A" }), ("b2", { sha := "C1", base := some "B2" })],
   [("main", "a"), ("b1", "b2"), ("main", "b1")]⟩

/-- Trunk and one stacked branch, used by the restack and forget scenarios. -/
def gC4 : Graph :=
  ⟨[("main", { sha := "A2" }), ("feat", { sha := "B1", base := some "A1" })],
   [("main", "feat")]⟩

/-- Oracle for the restack scenario: the plain rebase succeeds. -/
def envC4 : Env :=
  { baseEnv with
    headBranch0 := "feat"
    tip := fun b => if b == "feat" then "B1" else "" }

/-- A node with a stored `pull_url`, for the submit-update scenario. -/
def gC5 : Graph :=
  ⟨[("main", { sha := "A" }),
    ("b", { sha := "B", base := some "A", pull_url := some "https://api.github.com/repos/m/t/pulls/7" })],
   [("main", "b")]⟩

/-- Oracle whose pull-request update returns 404. -/
def envC5 : Env :=
  { baseEnv with
    headBranch0 := "b"
    originRepo := some "m/t"
    updateStatus := 404 }

/-- A node without a stored `pull_url`, for the submit-create scenarios. -/
def gC6 : Graph :=
  ⟨[("main", { sha := "A" }), ("b", { sha := "B", base := some "A" })],
   [("main", "b")]⟩

/-- Oracle whose draft creation attempt is answered with status 500 and a
body that still carries a `url` field. -/
def envC6 : Env :=
  { baseEnv with
    headBranch0 := "b"
    originRepo := some "m/t"
    createResp := fun d => if d then (500, "/u500") else (201, "/u201") }

/-- Oracle whose draft creation attempt is rejected with 422 (drafts
unsupported) and whose non-draft retry succeeds. -/
def envC6d : Env :=
  { baseEnv with
    headBranch0 := "b"
    originRepo := some "m/t"
    createResp := fun d => if d then (422, "") else (201, "/u201") }

/-- Stack `main → x → y`, used by the forget scenarios. -/
def gC7 : Graph :=
  ⟨[("main", { sha := "A" }), ("x", { sha := "B", base := some "A" }),
    ("y", { sha := "C", base := some "B" })],
   [("main", "x"), ("x", "y")]⟩

/-- A graph exercising every optional attribute, for the round-trip
witness. -/
def gC9 : Graph :=
  ⟨[("main", { sha := "A" }), ("x", { sha := "B", base := some "A" }),
    ("y", { sha := "C", base := some "B", pull_url := some "https://api.github.com/repos/m/t/pulls/3" })],
   [("main", "x"), ("x", "y")]⟩

/-- An invocation that observes trunk `main` at `A` while `main` is
checked out. -/
def envR1 : Env :=
  { baseEnv with
    mainBranch := ("main", "A")
    headBranch0 := "main"
    tip := fun b => if b == "main" then "A" else "" }

/-- A later invocation that observes trunk `master` at `B` (the documented
master fallback after `main` disappeared) while `master` is checked out. -/
def envR2 : Env :=
  { baseEnv with
    mainBranch := ("master", "B")
    headBranch0 := "master"
    tip := fun b => if b == "master" then "B" else "" }

/-- The persisted file after `envR1` then `envR2` post-commit runs. -/
def fsTwoRoots : Option Graph :=
  runFile envR2 (runFile envR1 none .postCommit [] 1) .postCommit [] 1

/-- An environment with `STACKY_STACKY` present. -/
def envC10 : Env := { baseEnv with stackyStacky := true }

/-- The recorded `base` of a node, `none` when the node is absent or has
no base attribute. -/
def baseOf (g : Graph) (n : String) : Option String :=
  (lookupNode g n).bind NodeAttrs.base

/-- The graph `submit` leaves behind in the status-500 draft scenario:
`pull_url` was recorded from the failed response. -/
def gC6res : Graph :=
  ⟨[("main", { sha := "A" }),
    ("b", { sha := "B", base := some "A", pull_url := some "https://api.github.com/u500" })],
   [("main", "b")]⟩

/-! ## Helper lemmas -/

/-- Key-preserving attribute maps commute with association-list search. -/
theorem find_mapAttr (l : List (String × NodeAttrs)) (n : String) (f : NodeAttrs → NodeAttrs) :
    (l.map (fun p => if p.1 == n then (p.1, f p.2) else p)).find? (fun q => q.1 == n)
      = (l.find? (fun q => q.1 == n)).map (fun q => (q.1, f q.2)) := by
  induction l with
  | nil => rfl
  | cons p l ih =>
    by_cases h : p.1 = n
    · have hb : (p.1 == n) = true := by simp [h]
      have hfp : (if (p.1 == n) = true then (p.1, f p.2) else p) = (p.1, f p.2) := by
        simp [hb]
      rw [List.map_cons, hfp]
      simp only [List.find?_cons, hb]
      rfl
    · have hb : (p.1 == n) = false := by simp [h]
      have hfp : (if (p.1 == n) = true then (p.1, f p.2) else p) = p := by simp [hb]
      rw [List.map_cons, hfp]
      simp only [List.find?_cons, hb]
      exact ih

/-- Key-preserving attribute maps leave other keys' search untouched. -/
theorem find_mapAttr_ne (l : List (String × NodeAttrs)) (n m : String) (hnm : m ≠ n)
    (f : NodeAttrs → NodeAttrs) :
    (l.map (fun p => if p.1 == n then (p.1, f p.2) else p)).find? (fun q => q.1 == m)
      = l.find? (fun q => q.1 == m) := by
  induction l with
  | nil => rfl
  | cons p l ih =>
    by_cases h : p.1 = n
    · have hb : (p.1 == m) = false := by
        rw [h]; exact beq_eq_false_iff_ne.mpr (Ne.symm hnm)
      have hbn : (p.1 == n) = true := by simp [h]
      have hfp : (if (p.1 == n) = true then (p.1, f p.2) else p) = (p.1, f p.2) := by
        simp [hbn]
      rw [List.map_cons, hfp]
      simp only [List.find?_cons, hb]
      exact ih
    · have hbn : (p.1 == n) = false := by simp [h]
      have hfp : (if (p.1 == n) = true then (p.1, f p.2) else p) = p := by simp [hbn]
      rw [List.map_cons, hfp]
      by_cases h2 : p.1 = m
      · have hb : (p.1 == m) = true := by simp [h2]
        simp only [List.find?_cons, hb]
      · have hb : (p.1 == m) = false := by simp [h2]
        simp only [List.find?_cons, hb]
        exact ih

/-- Looking up the node just written by `setBase`. -/
theorem lookup_setBase_self (g : Graph) (n : String) (b : Option String) (a : NodeAttrs)
    (h : lookupNode g n = some a) :
    lookupNode (setBase g n b) n = some { a with base := b } := by
  unfold lookupNode at h
  unfold lookupNode setBase
  refine Eq.trans (congrArg (Option.map Prod.snd)
    (find_mapAttr g.nodes n (fun x => { x with base := b }))) ?_
  rcases hf : g.nodes.find? (fun p => p.1 == n) with _ | q
  · rw [hf] at h; exact absurd h (by simp)
  · have h2 : q.2 = a := by rw [hf] at h; simpa using h
    rw [hf]
    simp only [Option.map_some']
    rw [h2]

/-- Looking up the node just written by `setSha`. -/
theorem lookup_setSha_self (g : Graph) (n v : String) (a : NodeAttrs)
    (h : lookupNode g n = some a) :
    lookupNode (setSha g n v) n = some { a with sha := v } := by
  unfold lookupNode at h
  unfold lookupNode setSha
  refine Eq.trans (congrArg (Option.map Prod.snd)
    (find_mapAttr g.nodes n (fun x => { x with sha := v }))) ?_
  rcases hf : g.nodes.find? (fun p => p.1 == n) with _ | q
  · rw [hf] at h; exact absurd h (by simp)
  · have h2 : q.2 = a := by rw [hf] at h; simpa using h
    rw [hf]
    simp only [Option.map_some']
    rw [h2]

/-- Looking up the node just written by `setPullUrl`. -/
theorem lookup_setPullUrl_self (g : Graph) (n : String) (u : Option String) (a : NodeAttrs)
    (h : lookupNode g n = some a) :
    lookupNode (setPullUrl g n u) n = some { a with pull_url := u } := by
  unfold lookupNode at h
  unfold lookupNode setPullUrl
  refine Eq.trans (congrArg (Option.map Prod.snd)
    (find_mapAttr g.nodes n (fun x => { x with pull_url := u }))) ?_
  rcases hf : g.nodes.find? (fun p => p.1 == n) with _ | q
  · rw [hf] at h; exact absurd h (by simp)
  · have h2 : q.2 = a := by rw [hf] at h; simpa using h
    rw [hf]
    simp only [Option.map_some']
    rw [h2]

/-- `hasNode` is membership in the key list. -/
theorem hasNode_iff (g : Graph) (n : String) : hasNode g n = true ↔ n ∈ nodeKeys g := by
  unfold hasNode nodeKeys
  simp [List.any_eq_true]

/-- A singleton predecessor list pins down the in-edge filter. -/
theorem filter_tgt_of_preds (g : Graph) (h p : String) (hp : preds g h = [p]) :
    g.edges.filter (fun e => e.2 == h) = [(p, h)] := by
  unfold preds at hp
  rcases hl : g.edges.filter (fun e => e.2 == h) with _ | ⟨x, l⟩
  · rw [hl] at hp; simp at hp
  · rw [hl] at hp
    rcases l with _ | ⟨y, l⟩
    · have hx2 : x.2 = h := by
        have hx := List.mem_filter.mp (hl ▸ List.mem_singleton_self x)
        simpa using hx.2
      have hx1 : x.1 = p := by simpa using hp
      rw [hl]
      rcases x with ⟨x1, x2⟩
      simp only at hx1 hx2
      rw [hx1, hx2]
    · simp at hp

/-- The single in-edge asserted by a singleton predecessor list exists. -/
theorem mem_edges_of_preds (g : Graph) (h p : String) (hp : preds g h = [p]) :
    (p, h) ∈ g.edges :=
  List.mem_of_mem_filter (filter_tgt_of_preds g h p hp ▸ List.mem_singleton_self (p, h))

/-- Under a singleton predecessor list the in-edge occurs exactly once. -/
theorem count_edge_of_preds (g : Graph) (h p : String) (hp : preds g h = [p]) :
    g.edges.count (p, h) = 1 := by
  have hf := filter_tgt_of_preds g h p hp
  have : g.edges.count (p, h) = (g.edges.filter (fun e => e.2 == h)).count (p, h) := by
    rw [List.count_filter]
    simp
  rw [this, hf]
  simp

/-- An empty successor list means no out-edges at all. -/
theorem no_out_of_succs (g : Graph) (h : String) (hs : succs g h = []) :
    ∀ e ∈ g.edges, ¬ e.1 = h := by
  unfold succs at hs
  have hf : g.edges.filter (fun e => e.1 == h) = [] := by
    rcases he : g.edges.filter (fun e => e.1 == h) with _ | ⟨x, l⟩
    · exact he
    · rw [he] at hs; simp at hs
  intro e he hne
  have : e ∈ g.edges.filter (fun e => e.1 == h) := List.mem_filter.mpr ⟨he, by simp [hne]⟩
  rw [hf] at this
  simp at this

/-- A singleton predecessor list: erasing the in-edge removes it entirely. -/
theorem not_mem_erase_of_preds (g : Graph) (h p : String) (hp : preds g h = [p]) :
    (p, h) ∉ g.edges.erase (p, h) := by
  have hc := count_edge_of_preds g h p hp
  intro hmem
  have := List.count_pos_iff.mpr hmem
  rw [List.count_erase_self, hc] at this
  simp at this

/-! ## Claim theorems -/

/-- Claim C10: when the re-entrancy environment variable STACKY_STACKY is
set, the invocation returns immediately: the graph file is neither read
nor rewritten, no node or edge is modified, and no VCS or hosting call is
made, so hook invocations triggered by cascaded checkouts are complete
no-ops. -/
theorem claim_c10 (env : Env) (file : Option Graph) (a : Act) (args : List String)
    (fuel : Nat) (h : env.stackyStacky = true) :
    runMain env file a args fuel = .skipped ∧
    runFile env file a args fuel = file ∧
    runTrace env file a args fuel = [] := by
  have hm : runMain env file a args fuel = .skipped := by
    unfold runMain
    simp [h]
  refine ⟨hm, ?_, ?_⟩
  · unfold runFile
    rw [hm]
  · unfold runTrace
    rw [hm]

/-- Witness for claim C10 at a concrete invocation. -/
theorem claim_c10_witness :
    envC10.stackyStacky = true ∧
    runMain envC10 (some gC1) .restack [] 5 = .skipped ∧
    runFile envC10 (some gC1) .restack [] 5 = some gC1 ∧
    runTrace envC10 (some gC1) .restack [] 5 = [] :=
  ⟨rfl, (claim_c10 envC10 (some gC1) .restack [] 5 rfl).1,
    (claim_c10 envC10 (some gC1) .restack [] 5 rfl).2.1,
    (claim_c10 envC10 (some gC1) .restack [] 5 rfl).2.2⟩

/-- Claim C4: for a tracked active node with exactly one parent whose
recorded sha equals the adapter's current tip, a successful restack sets
the node's base to its parent's recorded sha. -/
theorem claim_c4 (env : Env) (g : Graph) (h s p : String) (a pa : NodeAttrs)
    (hA : lookupNode g h = some a) (hs : a.sha = s) (hP : preds g h = [p])
    (hPA : lookupNode g p = some pa) (hR : env.rebaseOk pa.sha = true) :
    restackBranch env g h s = .ok (setBase g h (some pa.sha)) [Eff.gitRebase pa.sha] ∧
    lookupNode (setBase g h (some pa.sha)) h = some { a with base := some pa.sha } := by
  constructor
  · subst hs
    simp only [restackBranch, hA, hP, hPA, hR]
    simp
  · exact lookup_setBase_self g h (some pa.sha) a hA

/-- Witness for claim C4 at a concrete restack. -/
theorem claim_c4_witness :
    lookupNode gC4 "feat" = some { sha := "B1", base := some "A1" } ∧
    preds gC4 "feat" = ["main"] ∧
    envC4.rebaseOk "A2" = true ∧
    restackBranch envC4 gC4 "feat" "B1" =
      .ok (setBase gC4 "feat" (some "A2")) [Eff.gitRebase "A2"] ∧
    lookupNode (setBase gC4 "feat" (some "A2")) "feat" =
      some { sha := "B1", base := some "A2" } :=
  ⟨rfl, rfl, rfl,
    (claim_c4 envC4 gC4 "feat" "B1" "main" { sha := "B1", base := some "A1" }
      { sha := "A2" } rfl rfl rfl rfl rfl).1,
    (claim_c4 envC4 gC4 "feat" "B1" "main" { sha := "B1", base := some "A1" }
      { sha := "A2" } rfl rfl rfl rfl rfl).2⟩

/-- Claim C5: on a node with exactly one parent and a stored `pull_url`,
submit issues exactly one pull-request update (retargeting base to the
parent name and head to the node name) and zero create calls; a
non-success status is a fatal error, a success status returns normally
with the graph unchanged. -/
theorem claim_c5 (env : Env) (g : Graph) (h p u : String) (title : Option String)
    (a : NodeAttrs) (hA : lookupNode g h = some a) (hu : a.pull_url = some u)
    (hP : preds g h = [p]) :
    (submitPullRequest env g h title).trace = [Eff.prUpdate u p h] ∧
    (¬ (200 ≤ env.updateStatus ∧ env.updateStatus < 299) →
      submitPullRequest env g h title = .crashed g [Eff.prUpdate u p h]) ∧
    ((200 ≤ env.updateStatus ∧ env.updateStatus < 299) →
      submitPullRequest env g h title = .ok g [Eff.prUpdate u p h]) := by
  have hsub : submitPullRequest env g h title =
      (if 200 ≤ env.updateStatus ∧ env.updateStatus < 299 then Res.ok g [Eff.prUpdate u p h]
       else Res.crashed g [Eff.prUpdate u p h]) := by
    simp only [submitPullRequest, hP, hA, hu]
  by_cases hS : 200 ≤ env.updateStatus ∧ env.updateStatus < 299
  · rw [hsub, if_pos hS]
    exact ⟨rfl, fun hc => absurd hS hc, fun _ => rfl⟩
  · rw [hsub, if_neg hS]
    exact ⟨rfl, fun _ => rfl, fun hc => absurd hc hS⟩

/-- Witness for claim C5: a 404 on the single update call is fatal. -/
theorem claim_c5_witness :
    lookupNode gC5 "b" =
      some { sha := "B", base := some "A",
             pull_url := some "https://api.github.com/repos/m/t/pulls/7" } ∧
    preds gC5 "b" = ["main"] ∧
    envC5.updateStatus = 404 ∧
    (submitPullRequest envC5 gC5 "b" none).trace =
      [Eff.prUpdate "https://api.github.com/repos/m/t/pulls/7" "main" "b"] ∧
    submitPullRequest envC5 gC5 "b" none =
      .crashed gC5 [Eff.prUpdate "https://api.github.com/repos/m/t/pulls/7" "main" "b"] :=
  ⟨rfl, rfl, rfl,
    (claim_c5 envC5 gC5 "b" "main" "https://api.github.com/repos/m/t/pulls/7" none
      { sha := "B", base := some "A",
        pull_url := some "https://api.github.com/repos/m/t/pulls/7" } rfl rfl rfl).1,
    (claim_c5 envC5 gC5 "b" "main" "https://api.github.com/repos/m/t/pulls/7" none
      { sha := "B", base := some "A",
        pull_url := some "https://api.github.com/repos/m/t/pulls/7" } rfl rfl rfl).2.1
      (by decide)⟩

/-- Claim C7: forgetting the active branch, or a branch with at least one
child, fails with a topology error and leaves the graph unchanged; when
the target is a tracked non-active node with no children and a single
inbound edge, forget removes exactly that node entry and that edge. -/
theorem claim_c7 :
    (∀ (g : Graph) (h : String), forgetBranch g h h = .crashed g []) ∧
    (∀ (g : Graph) (h old c : String) (cs : List String), old ≠ h →
      succs g old = c :: cs → forgetBranch g h old = .crashed g []) ∧
    (∀ (g : Graph) (h old p : String), old ≠ h → succs g old = [] →
      g.edges.filter (fun e => e.2 == old) = [(p, old)] → hasNode g old = true →
      forgetBranch g h old =
        .ok ⟨g.nodes.filter (fun q => !(q.1 == old)),
             g.edges.filter (fun e => !(e == (p, old)))⟩ []) := by
  refine ⟨?_, ?_, ?_⟩
  · intro g h
    unfold forgetBranch
    simp
  · intro g h old c cs hne hsucc
    have hbe : (old == h) = false := by simp [hne]
    unfold forgetBranch
    rw [hbe, hsucc]
    simp
  · intro g h old p hne hsucc hfil hmem
    have hbe : (old == h) = false := by simp [hne]
    have hout := no_out_of_succs g old hsucc
    have hrem : removeNode g old =
        ⟨g.nodes.filter (fun q => !(q.1 == old)),
         g.edges.filter (fun e => !(e == (p, old)))⟩ := by
      unfold removeNode
      have hfe : g.edges.filter (fun e => !(e.1 == old) && !(e.2 == old)) =
          g.edges.filter (fun e => !(e == (p, old))) := by
        apply List.filter_congr
        intro e he
        by_cases h2 : e.2 = old
        · have hin : e ∈ g.edges.filter (fun e => e.2 == old) :=
            List.mem_filter.mpr ⟨he, by simp [h2]⟩
          rw [hfil] at hin
          have : e = (p, old) := by simpa using hin
          subst this
          simp
        · have h1 : ¬ e.1 = old := hout e he
          have h3 : ¬ e = (p, old) := by
            intro hc
            exact h2 (by rw [hc])
          rw [beq_eq_false_iff_ne.mpr h1, beq_eq_false_iff_ne.mpr h2,
            beq_eq_false_iff_ne.mpr h3]
          rfl
      rw [hfe]
    unfold forgetBranch
    rw [hbe, hsucc, hmem, hrem]
    simp

/-- Witness for claim C7: all three forget behaviors at the concrete stack
`main → x → y`. -/
theorem claim_c7_witness :
    forgetBranch gC7 "x" "x" = .crashed gC7 [] ∧
    forgetBranch gC7 "y" "x" = .crashed gC7 [] ∧
    forgetBranch gC7 "x" "y" =
      .ok ⟨gC7.nodes.filter (fun q => !(q.1 == "y")),
           gC7.edges.filter (fun e => !(e == ("x", "y")))⟩ [] :=
  ⟨claim_c7.1 gC7 "x",
   claim_c7.2.1 gC7 "y" "x" "y" [] (by decide) rfl,
   claim_c7.2.2 gC7 "x" "y" "x" (by decide) rfl rfl rfl⟩

/-- Claim C1 counterexample: `gC1` is a tracked graph whose active node
`feat` has exactly one parent (`main`) and a recorded sha equal to the
current tip, yet `move_branch(feat, main)` — the new parent equal to the
current parent — issues a range-qualified rebase and changes the graph
(`feat.base` becomes `main`'s sha and `feat.sha` the replayed tip), so the
claimed no-op short-circuit does not exist in the code. -/
theorem claim_c1_counterexample :
    preds gC1 "feat" = ["main"] ∧
    lookupNode gC1 "feat" = some { sha := "B1", base := some "A1" } ∧
    envC1.tip "feat" = "B1" ∧
    moveBranch envC1 2 gC1 "feat" "B1" "main" =
      .ok gC1' [Eff.gitRebaseOnto "A2" "A1" "feat", Eff.gitCheckout "feat"] ∧
    gC1' ≠ gC1 :=
  ⟨rfl, rfl, rfl, rfl, by decide⟩

/-- Claim C2 evaluated at a failing input: when the range-qualified rebase
of `b1` exits non-zero, `move_branch` still reassigns `b1.base` to the new
parent's sha and then crashes (the `new_head_sha` read raises
`UnboundLocalError`), instead of logging and leaving the recorded state
unchanged; the cascade is never started (no checkout in the trace). -/
theorem claim_c2 :
    lookupNode gC2 "b1" = some { sha := "B1", base := some "A1" } ∧
    envC2.rebaseOnto "A2" "A1" "b1" = none ∧
    moveBranch envC2 2 gC2 "b1" "B1" "main" =
      .crashed gC2' [Eff.gitRebaseOnto "A2" "A1" "b1"] ∧
    lookupNode gC2' "b1" = some { sha := "B1", base := some "A2" } :=
  ⟨rfl, rfl, rfl, rfl⟩

/-- Claim C3 evaluated at a failing input: moving `b1` onto `main`
succeeds for `b1` itself, the cascaded rebase of its child `b2` then
conflicts, and the resulting crash aborts the invocation before
`read_graph` rewrites `.stack.json` — so the already-applied portion of
the cascade (`b1` moved, in `gC3mem`) is NOT in the persisted file, which
is left exactly as before the invocation. -/
theorem claim_c3 :
    runMain envC3 (some fC3) .moveOnto ["main"] 9 =
      .crashed gC3mem
        [Eff.readGraphFile, Eff.revParseMain, Eff.revParseHead, Eff.revParseHead,
         Eff.gitMergeBase "a" "b1", Eff.gitRebaseOnto "A" "A0" "b1",
         Eff.gitCheckout "b2", Eff.revParseHead, Eff.gitRebaseOnto "B2" "B1" "b2"] ∧
    runFile envC3 (some fC3) .moveOnto ["main"] 9 = some fC3 ∧
    lookupNode fC3 "b1" = some { sha := "B1", base := some "A0" } ∧
    lookupNode gC3mem "b1" = some { sha := "B2", base := some "A" } ∧
    lookupNode gC3mem "b2" = some { sha := "C1", base := some "B2" } :=
  ⟨rfl, rfl, rfl, rfl, rfl⟩

/-- Claim C6 counterexample: the draft creation attempt is answered with
status 500 (not a success), yet `submit` records the response's `url`
field as `pull_url` and stops — so `pull_url` is not recorded "on the
first successful creation response" but on the first response that is not
a draft-422. -/
theorem claim_c6_counterexample :
    (envC6.createResp true).1 = 500 ∧
    ¬ (200 ≤ (envC6.createResp true).1 ∧ (envC6.createResp true).1 < 299) ∧
    submitPullRequest envC6 gC6 "b" none =
      .ok gC6res [Eff.gitRemoteV, Eff.prCreate "main" "b" "Untitled Pull Request" true] ∧
    lookupNode gC6res "b" =
      some { sha := "B", base := some "A",
             pull_url := some "https://api.github.com/u500" } :=
  ⟨rfl, by decide, rfl, rfl⟩

/-- Claim C8 counterexample: after an invocation that observes trunk
`main` and a later one that observes trunk `master` (the documented
fallback once `main` is gone), the persisted, reachable graph has two
root nodes — "exactly one root node exists" fails at the load checkpoint
and in the persisted state. -/
theorem claim_c8_counterexample :
    ReachableAny fsTwoRoots ∧
    fsTwoRoots = some ⟨[("main", { sha := "A" }), ("master", { sha := "B" })], []⟩ ∧
    rootNodes ⟨[("main", { sha := "A" }), ("master", { sha := "B" })], []⟩ =
      ["main", "master"] :=
  ⟨ReachableAny.step envR2 .postCommit [] 1 _
      (ReachableAny.step envR1 .postCommit [] 1 none ReachableAny.init),
   rfl, rfl⟩

/-- Claim C6 (amended): creation is attempted first as a draft; exactly
when that draft attempt returns status 422 (the code's drafts-unsupported
signal), exactly one retry without draft mode is issued; and `pull_url` is
recorded from the first response that is not a draft-422 — regardless of
that response's status. -/
theorem claim_c6_amended (env : Env) (g : Graph) (h p repo : String)
    (title : Option String) (a : NodeAttrs)
    (hA : lookupNode g h = some a) (hu : a.pull_url = none) (hP : preds g h = [p])
    (hO : env.originRepo = some repo) :
    ((env.createResp true).1 = 422 →
      submitPullRequest env g h title =
        .ok (setPullUrl g h (some (joinUrl env.githubApi (env.createResp false).2)))
          [Eff.gitRemoteV, Eff.prCreate p h (title.getD "Untitled Pull Request") true,
           Eff.prCreate p h (title.getD "Untitled Pull Request") false]) ∧
    ((env.createResp true).1 ≠ 422 →
      submitPullRequest env g h title =
        .ok (setPullUrl g h (some (joinUrl env.githubApi (env.createResp true).2)))
          [Eff.gitRemoteV, Eff.prCreate p h (title.getD "Untitled Pull Request") true]) ∧
    (∀ v, lookupNode (setPullUrl g h (some v)) h = some { a with pull_url := some v }) := by
  refine ⟨?_, ?_, fun v => lookup_setPullUrl_self g h (some v) a hA⟩
  · intro hc
    have hb : ((env.createResp true).1 == 422) = true := by simp [hc]
    simp only [submitPullRequest, hP, hA, hu, hO, hb]
    simp
  · intro hc
    have hb : ((env.createResp true).1 == 422) = false := by simp [hc]
    simp only [submitPullRequest, hP, hA, hu, hO, hb]
    simp

/-- Witness for claim C6 (amended): a draft attempt rejected with 422 is
retried once without draft mode and the second response's url is stored. -/
theorem claim_c6_amended_witness :
    lookupNode gC6 "b" = some { sha := "B", base := some "A" } ∧
    preds gC6 "b" = ["main"] ∧
    (envC6d.createResp true).1 = 422 ∧
    submitPullRequest envC6d gC6 "b" none =
      .ok (setPullUrl gC6 "b" (some (joinUrl envC6d.githubApi (envC6d.createResp false).2)))
        [Eff.gitRemoteV, Eff.prCreate "main" "b" "Untitled Pull Request" true,
         Eff.prCreate "main" "b" "Untitled Pull Request" false] :=
  ⟨rfl, rfl, rfl,
    (claim_c6_amended envC6d gC6 "b" "main" "m/t" none { sha := "B", base := some "A" }
      rfl rfl rfl rfl).1 rfl⟩

/-- Setters do not touch the edge list. -/
theorem edges_setSha (g : Graph) (n v : String) : (setSha g n v).edges = g.edges := rfl

/-- Setters do not touch the edge list. -/
theorem edges_setBase (g : Graph) (n : String) (b : Option String) :
    (setBase g n b).edges = g.edges := rfl

/-- Claim C1 (amended): invoking the move operator with the new parent
equal to the current parent is not short-circuited: the range-qualified
rebase is issued anyway, and on success (here for a childless node) the
node's `base` is set to the parent's sha, its `sha` to the re-read tip,
and the parent edge is removed and re-appended — the graph is unchanged
only when all of these coincide with the previous values. -/
theorem claim_c1_amended (env : Env) (fuel : Nat) (g : Graph) (h p oldBase newTip : String)
    (a pa : NodeAttrs)
    (hA : lookupNode g h = some a) (hP : preds g h = [p]) (hB : a.base = some oldBase)
    (hPA : lookupNode g p = some pa) (hR : env.rebaseOnto pa.sha oldBase h = some newTip)
    (hC : succs g h = []) :
    moveBranch env (fuel + 1) g h a.sha p =
      .ok { nodes := (setSha (setBase g h (some pa.sha)) h newTip).nodes,
            edges := g.edges.erase (p, h) ++ [(p, h)] }
        [Eff.gitRebaseOnto pa.sha oldBase h, Eff.gitCheckout h] ∧
    lookupNode (setSha (setBase g h (some pa.sha)) h newTip) h =
      some { a with sha := newTip, base := some pa.sha } := by
  have hmem : (p, h) ∈ g.edges := mem_edges_of_preds g h p hP
  have hcon : g.edges.contains (p, h) = true := List.elem_eq_true_of_mem hmem
  have hcon2 : (g.edges.erase (p, h)).contains (p, h) = false := by
    simpa using not_mem_erase_of_preds g h p hP
  have hout := no_out_of_succs g h hC
  have hph : ¬ p = h := fun hc => hout (p, h) hmem (by simpa using hc)
  constructor
  · have hrem : removeEdge (setSha (setBase g h (some pa.sha)) h newTip) p h =
        some ⟨(setSha (setBase g h (some pa.sha)) h newTip).nodes, g.edges.erase (p, h)⟩ := by
      unfold removeEdge
      rw [edges_setSha, edges_setBase, hcon]
      simp
    have hadd : addEdge ⟨(setSha (setBase g h (some pa.sha)) h newTip).nodes,
          g.edges.erase (p, h)⟩ p h =
        ⟨(setSha (setBase g h (some pa.sha)) h newTip).nodes,
          g.edges.erase (p, h) ++ [(p, h)]⟩ := by
      unfold addEdge
      simp only [hcon2]
      simp
    have hsucc3 : succs ⟨(setSha (setBase g h (some pa.sha)) h newTip).nodes,
          g.edges.erase (p, h) ++ [(p, h)]⟩ h = [] := by
      unfold succs
      simp only []
      rw [List.filter_append]
      have f1 : (g.edges.erase (p, h)).filter (fun e => e.1 == h) = [] := by
        rw [List.filter_eq_nil_iff]
        intro e he
        have : e ∈ g.edges := (g.edges.erase_sublist (p, h)).mem he
        simpa using hout e this
      have f2 : ([(p, h)] : List (String × String)).filter (fun e => e.1 == h) = [] := by
        simp [hph]
      rw [f1, f2]
      rfl
    simp only [moveBranch, hA, hP, hB, hPA, hR]
    rw [if_neg (by simp)]
    rw [hrem]
    simp [hadd, hsucc3, moveKids]
  · exact lookup_setSha_self _ h newTip _ (lookup_setBase_self g h (some pa.sha) a hA)

/-- Witness for claim C1 (amended): the concrete same-parent move of
`feat` issues the rebase and rewrites base, sha, and the edge list. -/
theorem claim_c1_amended_witness :
    preds gC1 "feat" = ["main"] ∧
    succs gC1 "feat" = [] ∧
    moveBranch envC1 1 gC1 "feat" "B1" "main" =
      .ok ⟨(setSha (setBase gC1 "feat" (some "A2")) "feat" "B2").nodes,
           gC1.edges.erase ("main", "feat") ++ [("main", "feat")]⟩
        [Eff.gitRebaseOnto "A2" "A1" "feat", Eff.gitCheckout "feat"] :=
  ⟨rfl, rfl,
    (claim_c1_amended envC1 0 gC1 "feat" "main" "A1" "B2"
      { sha := "B1", base := some "A1" } { sha := "A2" }
      rfl rfl rfl rfl rfl rfl).1⟩

/-- Parsing inverts emission for one node entry. -/
theorem parse_emit_node (p : String × NodeAttrs) : parseNodeEntry (emitNode p) = some p := by
  rcases p with ⟨n, s, b, u⟩
  cases b <;> cases u <;> rfl

/-- Parsing inverts emission for one edge entry. -/
theorem parse_emit_edge (e : String × String) : parseEdgeEntry (emitEdge e) = some e := rfl

/-- The `mapM` loop inverts emission entrywise. -/
theorem mapM_loop_parse {α β : Type} (f : β → Option α) (emit : α → β)
    (hpe : ∀ x, f (emit x) = some x) :
    ∀ (l acc : List α), List.mapM.loop f (l.map emit) acc = some (acc.reverse ++ l) := by
  intro l
  induction l with
  | nil => intro acc; simp [List.mapM.loop]
  | cons p l ih =>
    intro acc
    rw [List.map_cons]
    unfold List.mapM.loop
    rw [hpe p]
    show List.mapM.loop f (l.map emit) (p :: acc) = some (acc.reverse ++ p :: l)
    rw [ih (p :: acc)]
    simp

/-- Parsing inverts emission across the node sequence. -/
theorem mapM_parse_emit_nodes (l : List (String × NodeAttrs)) :
    (l.map emitNode).mapM parseNodeEntry = some l := by
  show List.mapM.loop parseNodeEntry (l.map emitNode) [] = some l
  rw [mapM_loop_parse parseNodeEntry emitNode parse_emit_node l []]
  rfl

/-- Parsing inverts emission across the edge sequence. -/
theorem mapM_parse_emit_edges (l : List (String × String)) :
    (l.map emitEdge).mapM parseEdgeEntry = some l := by
  show List.mapM.loop parseEdgeEntry (l.map emitEdge) [] = some l
  rw [mapM_loop_parse parseEdgeEntry emitEdge parse_emit_edge l []]
  rfl

/-- Replaying fresh node entries appends them in order. -/
theorem foldl_addLoadedNode (l : List (String × NodeAttrs)) :
    ∀ (g : Graph), (∀ q ∈ l, hasNode g q.1 = false) → (l.map Prod.fst).Nodup →
      l.foldl addLoadedNode g = { g with nodes := g.nodes ++ l } := by
  induction l with
  | nil => intro g _ _; simp
  | cons q l ih =>
    intro g hfresh hnodup
    rw [List.map_cons, List.nodup_cons] at hnodup
    rw [List.foldl_cons]
    have hq : hasNode g q.1 = false := hfresh q (by simp)
    have hstep : addLoadedNode g q = { g with nodes := g.nodes ++ [q] } := by
      unfold addLoadedNode
      rw [hq]
      simp
    rw [hstep, ih]
    · simp
    · intro r hr
      have h1 : hasNode g r.1 = false := hfresh r (by simp [hr])
      have h2 : (q.1 == r.1) = false := by
        refine beq_eq_false_iff_ne.mpr ?_
        intro hc
        exact hnodup.1 (hc ▸ List.mem_map_of_mem Prod.fst hr)
      unfold hasNode at h1 ⊢
      simp only [List.any_append, List.any_cons, List.any_nil, h1]
      simp [h2]
    · exact hnodup.2

/-- Replaying edge entries between existing nodes appends them in order. -/
theorem foldl_addLoadedEdge (l : List (String × String)) :
    ∀ (g : Graph), (∀ e ∈ l, hasNode g e.1 = true ∧ hasNode g e.2 = true) →
      (g.edges ++ l).Nodup →
      l.foldl addLoadedEdge g = { g with edges := g.edges ++ l } := by
  induction l with
  | nil => intro g _ _; simp
  | cons e l ih =>
    intro g hmem hnodup
    rw [List.foldl_cons]
    have h1 : hasNode g e.1 = true := (hmem e (by simp)).1
    have h2 : hasNode g e.2 = true := (hmem e (by simp)).2
    have hnot : e ∉ g.edges := by
      intro hc
      exact (List.disjoint_of_nodup_append hnodup) hc (by simp)
    have hcon : g.edges.contains (e.1, e.2) = false := by
      simpa using hnot
    have hstep : addLoadedEdge g e = { g with edges := g.edges ++ [e] } := by
      simp [addLoadedEdge, addEdge, h1, h2, hcon]
      intro hc
      exact absurd hc hnot
    rw [hstep, ih]
    · simp
    · intro r hr
      exact hmem r (by simp [hr])
    · simpa using hnodup

/-- Claim C9: loading the serialized form produced by save yields a graph
structurally equal to the original — same nodes with the same sha, base,
and pull_url attributes, same edges, insertion order preserved.  The
hypotheses state the well-formedness every `networkx.DiGraph` guarantees
by construction: unique node ids, no duplicate edges, and edge endpoints
among the nodes. -/
theorem claim_c9 (g : Graph) (hk : (nodeKeys g).Nodup) (he : g.edges.Nodup)
    (hep : ∀ e ∈ g.edges, e.1 ∈ nodeKeys g ∧ e.2 ∈ nodeKeys g) :
    loadJVal (saveJVal g) = some g := by
  have step1 : loadJVal (saveJVal g) =
      (match (g.nodes.map emitNode).mapM parseNodeEntry,
             (g.edges.map emitEdge).mapM parseEdgeEntry with
       | some nodeRecs, some edgeRecs =>
         some (edgeRecs.foldl addLoadedEdge (nodeRecs.foldl addLoadedNode ⟨[], []⟩))
       | _, _ => none) := rfl
  rw [step1, mapM_parse_emit_nodes, mapM_parse_emit_edges]
  have hfold1 : g.nodes.foldl addLoadedNode ⟨[], []⟩ = ⟨g.nodes, []⟩ := by
    rw [foldl_addLoadedNode g.nodes ⟨[], []⟩ (fun q _ => rfl) hk]
    simp
  have hfold2 : g.edges.foldl addLoadedEdge (⟨g.nodes, []⟩ : Graph) = ⟨g.nodes, g.edges⟩ := by
    rw [foldl_addLoadedEdge g.edges ⟨g.nodes, []⟩ ?memb ?nodu]
    case memb =>
      intro e hee
      have h := hep e hee
      exact ⟨(hasNode_iff ⟨g.nodes, []⟩ e.1).mpr h.1, (hasNode_iff ⟨g.nodes, []⟩ e.2).mpr h.2⟩
    case nodu => simpa using he
    simp
  show some (g.edges.foldl addLoadedEdge (g.nodes.foldl addLoadedNode ⟨[], []⟩)) = some g
  rw [hfold1, hfold2]

/-- Witness for claim C9 at a concrete three-node graph exercising the
optional base and pull_url attributes. -/
theorem claim_c9_witness :
    (nodeKeys gC9).Nodup ∧ gC9.edges.Nodup ∧
    loadJVal (saveJVal gC9) = some gC9 :=
  ⟨by decide, by decide,
    claim_c9 gC9 (by decide) (by decide) (by decide)⟩

/-! ## Walks and cycles -/

/-- Extending a walk by one edge. -/
theorem pathOk_append_edge (s : Finset (String × String)) (u v x : String) :
    ∀ (l : List String), pathOk s u l v → (v, x) ∈ s → pathOk s u (l ++ [x]) x := by
  intro l
  induction l generalizing u with
  | nil =>
    intro hp he
    cases hp
    exact ⟨he, rfl⟩
  | cons w l ih =>
    intro hp he
    exact ⟨hp.1, ih w hp.2 he⟩

/-- Walks are monotone in the edge set. -/
theorem pathOk_mono (s s2 : Finset (String × String)) (hsub : s ⊆ s2) (u v : String) :
    ∀ (l : List String), pathOk s u l v → pathOk s2 u l v := by
  intro l
  induction l generalizing u with
  | nil => intro hp; exact hp
  | cons w l ih => intro hp; exact ⟨hsub hp.1, ih w hp.2⟩

/-- Concatenating two walks. -/
theorem pathOk_trans (s : Finset (String × String)) (u v w : String) :
    ∀ (l1 l2 : List String), pathOk s u l1 v → pathOk s v l2 w →
      pathOk s u (l1 ++ l2) w := by
  intro l1
  induction l1 generalizing u with
  | nil =>
    intro l2 hp hq
    cases hp
    exact hq
  | cons y l1 ih => intro l2 hp hq; exact ⟨hp.1, ih y l2 hp.2 hq⟩

/-- A walk restarted at an interior node. -/
theorem pathOk_split (s : Finset (String × String)) (v x : String) :
    ∀ (l1 l2 : List String) (u : String), pathOk s u (l1 ++ x :: l2) v → pathOk s x l2 v := by
  intro l1
  induction l1 with
  | nil => intro l2 u hp; exact hp.2
  | cons y l1 ih => intro l2 u hp; exact ih l2 y hp.2

/-- Every walk can be replaced by one that never revisits its start. -/
theorem pathOk_avoid (s : Finset (String × String)) (u v : String) :
    ∀ (n : Nat) (l : List String), l.length ≤ n → pathOk s u l v →
      ∃ l2, pathOk s u l2 v ∧ u ∉ l2 := by
  intro n
  induction n with
  | zero =>
    intro l hlen hp
    rcases l with _ | ⟨w, l⟩
    · exact ⟨[], hp, by simp⟩
    · simp at hlen
  | succ n ih =>
    intro l hlen hp
    by_cases hu : u ∈ l
    · obtain ⟨l1, l2, rfl⟩ := List.append_of_mem hu
      have hp2 : pathOk s u l2 v := pathOk_split s v u l1 l2 u hp
      have hlen2 : l2.length ≤ n := by
        have := hlen
        simp [List.length_append] at this
        omega
      exact ih l2 hlen2 hp2
    · exact ⟨l, hp, hu⟩

/-- The targets of a walk's edges are its interior node list. -/
theorem pathOk_erase (s : Finset (String × String)) (p h v : String) :
    ∀ (l : List String) (x : String), pathOk s x l v → (∀ y ∈ l, ¬ y = h) →
      pathOk (s.erase (p, h)) x l v := by
  intro l
  induction l with
  | nil => intro x hp _; exact hp
  | cons w l ih =>
    intro x hp hl
    refine ⟨Finset.mem_erase.mpr ⟨?_, hp.1⟩, ih w hp.2 (fun y hy => hl y (by simp [hy]))⟩
    intro hc
    exact hl w (by simp) (congrArg Prod.snd hc)

/-- After rewiring `h` under `np` (removing the old in-edge, adding the new
one), a node reachable from `h` that equals or leads to `np` yields a child
of `h` from which `h` is reachable again: the configuration the cascade can
never finish. -/
theorem cycle_after_rewire (F : Finset (String × String)) (h p np : String)
    (hreach : ReachStar F h np) :
    ∃ c, (h, c) ∈ insert (np, h) (F.erase (p, h)) ∧
      ReachStar (insert (np, h) (F.erase (p, h))) c h := by
  obtain ⟨l, hl⟩ := hreach
  obtain ⟨l2, hl2, hnot⟩ := pathOk_avoid F h np l.length l (le_refl _) hl
  rcases l2 with _ | ⟨w, l3⟩
  · cases hl2
    exact ⟨h, Finset.mem_insert_self _ _, ⟨[], rfl⟩⟩
  · have hw : (h, w) ∈ F.erase (p, h) := by
      refine Finset.mem_erase.mpr ⟨?_, hl2.1⟩
      intro hc
      exact hnot (List.mem_cons.mpr (Or.inl (congrArg Prod.snd hc).symm))
    have hrest : pathOk (F.erase (p, h)) w l3 np :=
      pathOk_erase F p h np l3 w hl2.2 (fun y hy hc => hnot (by simp [hc ▸ hy]))
    refine ⟨w, Finset.mem_insert_of_mem hw, l3 ++ [h], ?_⟩
    refine pathOk_append_edge _ w np h l3 ?_ (Finset.mem_insert_self _ _)
    exact pathOk_mono (F.erase (p, h)) (insert (np, h) (F.erase (p, h)))
      (Finset.subset_insert _ _) w np l3 hrest

/-- Reachability is reflexive. -/
theorem reachStar_refl (s : Finset (String × String)) (u : String) : ReachStar s u u :=
  ⟨[], rfl⟩

/-- Reachability extends along an initial edge. -/
theorem reachStar_cons (s : Finset (String × String)) (u w v : String)
    (he : (u, w) ∈ s) (hr : ReachStar s w v) : ReachStar s u v := by
  obtain ⟨l, hl⟩ := hr
  exact ⟨w :: l, he, hl⟩

/-- Reachability is transitive. -/
theorem reachStar_trans (s : Finset (String × String)) (u v w : String)
    (h1 : ReachStar s u v) (h2 : ReachStar s v w) : ReachStar s u w := by
  obtain ⟨l1, hl1⟩ := h1
  obtain ⟨l2, hl2⟩ := h2
  exact ⟨l1 ++ l2, pathOk_trans s u v w l1 l2 hl1 hl2⟩

/-- Reachability is monotone in the edge set. -/
theorem reachStar_mono (s s2 : Finset (String × String)) (hsub : s ⊆ s2) (u v : String)
    (hr : ReachStar s u v) : ReachStar s2 u v := by
  obtain ⟨l, hl⟩ := hr
  exact ⟨l, pathOk_mono s s2 hsub u v l hl⟩

/-- A walk through `insert (a, b) s` either stays in `s` or passes through
the new edge; when `a` is not reachable from `b` in `s`, the passage
decomposes cleanly. -/
theorem reachStar_insert_decomp (s : Finset (String × String)) (a b : String)
    (hba : ¬ ReachStar s b a) (u v : String) :
    ReachStar (insert (a, b) s) u v →
      ReachStar s u v ∨ (ReachStar s u a ∧ ReachStar s b v) := by
  rintro ⟨l, hl⟩
  induction l generalizing u with
  | nil => exact Or.inl (hl ▸ reachStar_refl s u)
  | cons w l ih =>
    obtain ⟨he, hrest⟩ := hl
    rcases Finset.mem_insert.mp he with heq | hmem
    · have hua : u = a := congrArg Prod.fst heq
      have hwb : w = b := congrArg Prod.snd heq
      rcases ih w hrest with h1 | ⟨h2, _⟩
      · exact Or.inr ⟨hua ▸ reachStar_refl s u, hwb ▸ h1⟩
      · exact absurd (hwb ▸ h2) hba
    · rcases ih w hrest with h1 | ⟨h2, h3⟩
      · exact Or.inl (reachStar_cons s u w v hmem h1)
      · exact Or.inr ⟨reachStar_cons s u w a hmem h2, h3⟩

/-- Adding an edge `a → b` keeps the graph acyclic when `a` was not
reachable from `b`. -/
theorem acyclic_insert (s : Finset (String × String)) (a b : String)
    (hs : AcyclicE s) (hba : ¬ ReachStar s b a) : AcyclicE (insert (a, b) s) := by
  rintro x ⟨w, l, hxw, hl⟩
  have hwx : ReachStar (insert (a, b) s) w x := ⟨l, hl⟩
  rcases Finset.mem_insert.mp hxw with heq | hmem
  · have hxa : x = a := congrArg Prod.fst heq
    have hwb : w = b := congrArg Prod.snd heq
    rcases reachStar_insert_decomp s a b hba w x hwx with h1 | ⟨h2, _⟩
    · exact hba (hwb ▸ hxa ▸ h1)
    · exact hba (hwb ▸ h2)
  · rcases reachStar_insert_decomp s a b hba w x hwx with h1 | ⟨h2, h3⟩
    · obtain ⟨l2, hl2⟩ := h1
      exact hs x ⟨w, l2, hmem, hl2⟩
    · exact hba (reachStar_trans s b x a h3 (reachStar_cons s x w a hmem h2))

/-- Acyclicity restricts to subsets. -/
theorem acyclic_mono (s s2 : Finset (String × String)) (hsub : s ⊆ s2)
    (h2 : AcyclicE s2) : AcyclicE s := by
  rintro x ⟨w, l, hxw, hl⟩
  exact h2 x ⟨w, l, hsub hxw, pathOk_mono s s2 hsub w x l hl⟩

/-- Attribute updates keep the key list. -/
theorem nodeKeys_setSha (g : Graph) (n v : String) : nodeKeys (setSha g n v) = nodeKeys g := by
  unfold nodeKeys setSha
  rw [List.map_map]
  apply List.map_congr_left
  intro p _
  by_cases h : p.1 = n <;> simp [h]

/-- Attribute updates keep the key list. -/
theorem nodeKeys_setBase (g : Graph) (n : String) (b : Option String) :
    nodeKeys (setBase g n b) = nodeKeys g := by
  unfold nodeKeys setBase
  rw [List.map_map]
  apply List.map_congr_left
  intro p _
  by_cases h : p.1 = n <;> simp [h]

/-- Attribute updates keep the key list. -/
theorem nodeKeys_setPullUrl (g : Graph) (n : String) (u : Option String) :
    nodeKeys (setPullUrl g n u) = nodeKeys g := by
  unfold nodeKeys setPullUrl
  rw [List.map_map]
  apply List.map_congr_left
  intro p _
  by_cases h : p.1 = n <;> simp [h]

/-- Updating one node leaves the lookup of a different node unchanged. -/
theorem lookup_setSha_ne (g : Graph) (n v m : String) (hnm : m ≠ n) :
    lookupNode (setSha g n v) m = lookupNode g m := by
  unfold lookupNode setSha
  exact congrArg (Option.map Prod.snd)
    (find_mapAttr_ne g.nodes n m hnm (fun x => { x with sha := v }))

/-- Updating one node leaves the lookup of a different node unchanged. -/
theorem lookup_setBase_ne (g : Graph) (n : String) (b : Option String) (m : String)
    (hnm : m ≠ n) : lookupNode (setBase g n b) m = lookupNode g m := by
  unfold lookupNode setBase
  exact congrArg (Option.map Prod.snd)
    (find_mapAttr_ne g.nodes n m hnm (fun x => { x with base := b }))

/-- Updating one node leaves the lookup of a different node unchanged. -/
theorem lookup_setPullUrl_ne (g : Graph) (n : String) (u : Option String) (m : String)
    (hnm : m ≠ n) : lookupNode (setPullUrl g n u) m = lookupNode g m := by
  unfold lookupNode setPullUrl
  exact congrArg (Option.map Prod.snd)
    (find_mapAttr_ne g.nodes n m hnm (fun x => { x with pull_url := u }))

/-- An edge witnesses membership in the predecessor list. -/
theorem mem_preds_of_edge (g : Graph) (a b : String) (he : (a, b) ∈ g.edges) :
    a ∈ preds g b := by
  unfold preds
  exact List.mem_map_of_mem Prod.fst (List.mem_filter.mpr ⟨he, by simp⟩)

/-- Successor membership is edge membership. -/
theorem mem_succs_iff (g : Graph) (h c : String) : c ∈ succs g h ↔ (h, c) ∈ g.edges := by
  unfold succs
  constructor
  · intro hc
    obtain ⟨e, hef, he2⟩ := List.mem_map.mp hc
    obtain ⟨hee, he1⟩ := List.mem_filter.mp hef
    have h1 : e.1 = h := by simpa using he1
    have : e = (h, c) := by
      rcases e with ⟨e1, e2⟩
      simp only at h1 he2
      rw [h1, he2]
    exact this ▸ hee
  · intro he
    exact List.mem_map_of_mem Prod.snd (List.mem_filter.mpr ⟨he, by simp⟩)

/-- `add_edge` inserts into the edge set. -/
theorem edgeFinset_addEdge (g : Graph) (a b : String) :
    edgeFinset (addEdge g a b) = insert (a, b) (edgeFinset g) := by
  unfold addEdge edgeFinset
  by_cases hc : (a, b) ∈ g.edges
  · have : g.edges.contains (a, b) = true := List.elem_eq_true_of_mem hc
    rw [this]
    simp only [if_true]
    exact (Finset.insert_eq_self.mpr (List.mem_toFinset.mpr hc)).symm
  · have : g.edges.contains (a, b) = false := by simpa using hc
    rw [this]
    simp only [Bool.false_eq_true, if_false]
    rw [List.toFinset_append]
    rw [Finset.union_comm]
    simp [Finset.insert_eq]

/-- `add_edge` preserves distinct edges. -/
theorem nodup_addEdge (g : Graph) (a b : String) (hn : g.edges.Nodup) :
    (addEdge g a b).edges.Nodup := by
  unfold addEdge
  by_cases hc : (a, b) ∈ g.edges
  · have : g.edges.contains (a, b) = true := List.elem_eq_true_of_mem hc
    rw [this]
    simpa using hn
  · have : g.edges.contains (a, b) = false := by simpa using hc
    rw [this]
    simp only [Bool.false_eq_true, if_false]
    simp [List.nodup_append, hn, hc]

/-- Erasing from a duplicate-free list matches erasing from its set. -/
theorem toFinset_erase_nodup (l : List (String × String)) (e : String × String)
    (hn : l.Nodup) : (l.erase e).toFinset = l.toFinset.erase e := by
  apply Finset.ext
  intro x
  rw [List.mem_toFinset, Finset.mem_erase, List.mem_toFinset, List.Nodup.mem_erase_iff hn]

/-- An empty predecessor list means no in-edges. -/
theorem preds_nil_iff (g : Graph) (n : String) :
    preds g n = [] ↔ ∀ e ∈ g.edges, ¬ e.2 = n := by
  unfold preds
  constructor
  · intro hp e he hc
    have hf : g.edges.filter (fun e => e.2 == n) = [] := List.map_eq_nil_iff.mp hp
    have hmm : e ∈ g.edges.filter (fun e => e.2 == n) := List.mem_filter.mpr ⟨he, by simp [hc]⟩
    rw [hf] at hmm
    simp at hmm
  · intro hall
    have : g.edges.filter (fun e => e.2 == n) = [] := by
      rw [List.filter_eq_nil_iff]
      intro e he
      simpa using hall e he
    rw [this]
    rfl

/-- `add_edge` keeps the node list. -/
theorem nodeKeys_addEdge (g : Graph) (a b : String) :
    nodeKeys (addEdge g a b) = nodeKeys g := by
  unfold addEdge
  split <;> rfl

/-- `add_edge` keeps every node lookup. -/
theorem lookup_addEdge (g : Graph) (a b m : String) :
    lookupNode (addEdge g a b) m = lookupNode g m := by
  unfold addEdge
  split <;> rfl

/-- Edge membership after `add_edge`. -/
theorem mem_edges_addEdge (g : Graph) (a b : String) (e : String × String) :
    e ∈ (addEdge g a b).edges ↔ e ∈ g.edges ∨ e = (a, b) := by
  unfold addEdge
  split
  · rename_i hc
    have hmem : (a, b) ∈ g.edges := by simpa using hc
    constructor
    · exact Or.inl
    · rintro (he | rfl)
      · exact he
      · exact hmem
  · simp

/-- Unpacking a successful `remove_edge`. -/
theorem removeEdge_some (g g2 : Graph) (a b : String)
    (h : removeEdge g a b = some g2) :
    (a, b) ∈ g.edges ∧ g2 = { g with edges := g.edges.erase (a, b) } := by
  unfold removeEdge at h
  by_cases hmem : (a, b) ∈ g.edges
  · have hc : g.edges.contains (a, b) = true := List.elem_eq_true_of_mem hmem
    rw [hc] at h
    simp at h
    exact ⟨hmem, h.symm⟩
  · have hc : g.edges.contains (a, b) = false := by simpa using hmem
    rw [hc] at h
    simp at h

/-- Shape of every successful `move_branch` run (joint with its cascade
loop): node keys are preserved, duplicate-freedom of edges is preserved,
the edge set changes exactly by replacing the moved node's single in-edge
with one from the new parent (cascade rewires are identity), and any node
with no in-edges keeps its in-edges and attributes. -/
theorem move_shape (env : Env) : ∀ fuel : Nat,
    (∀ (g : Graph) (h s np : String) (g' : Graph) (tr : List Eff), g.edges.Nodup →
      moveBranch env fuel g h s np = Res.ok g' tr →
      nodeKeys g' = nodeKeys g ∧ g'.edges.Nodup ∧
      (∃ p, preds g h = [p] ∧
        edgeFinset g' = insert (np, h) ((edgeFinset g).erase (p, h))) ∧
      (∀ u, preds g u = [] → preds g' u = [] ∧ lookupNode g' u = lookupNode g u)) ∧
    (∀ (cs : List String) (x : String) (g : Graph) (tr : List Eff) (g' : Graph)
      (tr' : List Eff), g.edges.Nodup →
      moveKids env fuel cs x g tr = Res.ok g' tr' →
      (∀ c ∈ cs, (x, c) ∈ edgeFinset g) →
      nodeKeys g' = nodeKeys g ∧ g'.edges.Nodup ∧ edgeFinset g' = edgeFinset g ∧
      (∀ u, preds g u = [] → preds g' u = [] ∧ lookupNode g' u = lookupNode g u)) := by
  intro fuel
  induction fuel with
  | zero =>
    constructor
    · intro g h s np g' tr _ hok
      simp [moveBranch] at hok
    · intro cs x g tr g' tr' hnd hok _
      rcases cs with _ | ⟨c, rest⟩
      · simp [moveKids] at hok
        obtain ⟨rfl, rfl⟩ := hok
        exact ⟨rfl, hnd, rfl, fun u hu => ⟨hu, rfl⟩⟩
      · simp [moveKids] at hok
  | succ fuel ih =>
    obtain ⟨ihm, ihk⟩ := ih
    constructor
    · intro g h s np g' tr hnd hok
      simp only [moveBranch] at hok
      rcases hA : lookupNode g h with _ | a
      · simp only [hA] at hok
        exact absurd hok (by simp)
      · simp only [hA] at hok
        by_cases hsha : a.sha ≠ s
        · simp only [if_pos hsha] at hok
          exact absurd hok (by simp)
        · simp only [if_neg hsha] at hok
          rcases hP : preds g h with _ | ⟨p, _ | ⟨q, prest⟩⟩
          · simp only [hP] at hok
            exact absurd hok (by simp)
          · simp only [hP] at hok
            rcases hB : a.base with _ | oldBase
            · simp only [hB] at hok
              exact absurd hok (by simp)
            · simp only [hB] at hok
              rcases hNP : lookupNode g np with _ | npa
              · simp only [hNP] at hok
                exact absurd hok (by simp)
              · simp only [hNP] at hok
                rcases hR : env.rebaseOnto npa.sha oldBase h with _ | newTip
                · simp only [hR] at hok
                  exact absurd hok (by simp)
                · simp only [hR] at hok
                  rcases hRE : removeEdge (setSha (setBase g h (some npa.sha)) h newTip) p h
                    with _ | g2
                  · simp only [hRE] at hok
                    exact absurd hok (by simp)
                  · simp only [hRE] at hok
                    obtain ⟨hpin, hg2⟩ := removeEdge_some _ g2 p h hRE
                    have hg2e : g2.edges = g.edges.erase (p, h) := by
                      rw [hg2]
                      rfl
                    have hg2n : g2.nodes = (setSha (setBase g h (some npa.sha)) h newTip).nodes := by
                      rw [hg2]
                    have hg2nd : g2.edges.Nodup := by
                      rw [hg2e]; exact hnd.erase (p, h)
                    have hg3nd : (addEdge g2 np h).edges.Nodup := nodup_addEdge g2 np h hg2nd
                    have hg3fe : edgeFinset (addEdge g2 np h) =
                        insert (np, h) ((edgeFinset g).erase (p, h)) := by
                      rw [edgeFinset_addEdge]
                      unfold edgeFinset
                      rw [hg2e, toFinset_erase_nodup g.edges (p, h) hnd]
                    rcases hK : moveKids env fuel (succs (addEdge g2 np h) h) h (addEdge g2 np h)
                        [Eff.gitRebaseOnto npa.sha oldBase h] with ⟨gk, trk⟩ | ⟨gk, trk⟩
                    · simp only [hK] at hok
                      obtain ⟨rfl, rfl⟩ : gk = g' ∧ trk ++ [Eff.gitCheckout h] = tr := by
                        simpa using hok
                      obtain ⟨L1, L2, L3, L4⟩ := ihk (succs (addEdge g2 np h) h) h
                        (addEdge g2 np h) [Eff.gitRebaseOnto npa.sha oldBase h] gk trk
                        hg3nd hK
                        (fun c hc => List.mem_toFinset.mpr
                          ((mem_succs_iff (addEdge g2 np h) h c).mp hc))
                      refine ⟨?_, L2, ⟨p, rfl, L3.trans hg3fe⟩, ?_⟩
                      · rw [L1, nodeKeys_addEdge]
                        unfold nodeKeys
                        rw [hg2n]
                        rw [show (setSha (setBase g h (some npa.sha)) h newTip).nodes.map
                              Prod.fst = nodeKeys (setSha (setBase g h (some npa.sha)) h newTip)
                            from rfl]
                        rw [nodeKeys_setSha, nodeKeys_setBase]
                        rfl
                      · intro u hu
                        have hhu : ¬ h = u := by
                          intro hc
                          rw [hc, hu] at hP
                          exact List.noConfusion hP
                        have hu2 : preds g2 u = [] := by
                          rw [preds_nil_iff]
                          intro e he hc
                          rw [hg2e] at he
                          have := (preds_nil_iff g u).mp hu e ((g.edges.erase_sublist (p, h)).mem he)
                          exact this hc
                        have hu3 : preds (addEdge g2 np h) u = [] := by
                          rw [preds_nil_iff]
                          intro e he hc
                          rcases (mem_edges_addEdge g2 np h e).mp he with he2 | rfl
                          · exact (preds_nil_iff g2 u).mp hu2 e he2 hc
                          · exact hhu hc
                        have hlk : lookupNode (addEdge g2 np h) u = lookupNode g u := by
                          rw [lookup_addEdge]
                          have : lookupNode g2 u =
                              lookupNode (setSha (setBase g h (some npa.sha)) h newTip) u := by
                            unfold lookupNode
                            rw [hg2n]
                          rw [this, lookup_setSha_ne _ _ _ _ (fun hc => hhu hc.symm),
                            lookup_setBase_ne _ _ _ _ (fun hc => hhu hc.symm)]
                        obtain ⟨n1, n2⟩ := L4 u hu3
                        exact ⟨n1, n2.trans hlk⟩
                    · simp only [hK] at hok
                      exact absurd hok (by simp)
          · simp only [hP] at hok
            exact absurd hok (by simp)
    · intro cs x g tr g' tr' hnd hok hall
      rcases cs with _ | ⟨c, rest⟩
      · simp [moveKids] at hok
        obtain ⟨rfl, rfl⟩ := hok
        exact ⟨rfl, hnd, rfl, fun u hu => ⟨hu, rfl⟩⟩
      · simp only [moveKids] at hok
        rcases hMB : moveBranch env fuel g c (env.tip c) x with ⟨g1, tr1⟩ | ⟨g1, tr1⟩
        · simp only [hMB] at hok
          obtain ⟨K1, K2, ⟨pc, hpc, hfe⟩, K4⟩ := ihm g c (env.tip c) x g1 tr1 hnd hMB
          have hcx : (x, c) ∈ edgeFinset g := hall c (by simp)
          have hpcx : pc = x := by
            have hxm : x ∈ preds g c := mem_preds_of_edge g x c (List.mem_toFinset.mp hcx)
            rw [hpc] at hxm
            have hxp : x = pc := by simpa using hxm
            exact hxp.symm
          have hfe2 : edgeFinset g1 = edgeFinset g := by
            rw [hfe, hpcx]
            exact Finset.insert_erase hcx
          obtain ⟨L1, L2, L3, L4⟩ := ihk rest x g1 _ g' tr' K2 hok
            (by intro c2 hc2; rw [hfe2]; exact hall c2 (by simp [hc2]))
          refine ⟨L1.trans K1, L2, L3.trans hfe2, fun u hu => ?_⟩
          obtain ⟨m1, m2⟩ := K4 u hu
          obtain ⟨n1, n2⟩ := L4 u m1
          exact ⟨n1, n2.trans m2⟩
        · simp only [hMB] at hok
          exact absurd hok (by simp)

/-- A move whose new parent is reachable from the moved node can never
return successfully: the rewiring creates a cycle and the cascade chases
it until a crash or fuel exhaustion (Python's `RecursionError`). -/
theorem move_nt (env : Env) : ∀ fuel : Nat,
    (∀ (g : Graph) (h s np : String) (g' : Graph) (tr : List Eff), g.edges.Nodup →
      ReachStar (edgeFinset g) h np →
      moveBranch env fuel g h s np ≠ Res.ok g' tr) ∧
    (∀ (cs : List String) (x : String) (g : Graph) (tr : List Eff) (g' : Graph)
      (tr' : List Eff), g.edges.Nodup →
      (∀ c ∈ cs, (x, c) ∈ edgeFinset g) →
      (∃ c ∈ cs, ReachStar (edgeFinset g) c x) →
      moveKids env fuel cs x g tr ≠ Res.ok g' tr') := by
  intro fuel
  induction fuel with
  | zero =>
    constructor
    · intro g h s np g' tr _ _ hok
      simp [moveBranch] at hok
    · intro cs x g tr g' tr' _ _ hex hok
      rcases cs with _ | ⟨c, rest⟩
      · simp at hex
      · simp [moveKids] at hok
  | succ fuel ih =>
    obtain ⟨ihm, ihk⟩ := ih
    constructor
    · intro g h s np g' tr hnd hreach hok
      simp only [moveBranch] at hok
      rcases hA : lookupNode g h with _ | a
      · simp only [hA] at hok
        exact absurd hok (by simp)
      · simp only [hA] at hok
        by_cases hsha : a.sha ≠ s
        · simp only [if_pos hsha] at hok
          exact absurd hok (by simp)
        · simp only [if_neg hsha] at hok
          rcases hP : preds g h with _ | ⟨p, _ | ⟨q, prest⟩⟩
          · simp only [hP] at hok
            exact absurd hok (by simp)
          · simp only [hP] at hok
            rcases hB : a.base with _ | oldBase
            · simp only [hB] at hok
              exact absurd hok (by simp)
            · simp only [hB] at hok
              rcases hNP : lookupNode g np with _ | npa
              · simp only [hNP] at hok
                exact absurd hok (by simp)
              · simp only [hNP] at hok
                rcases hR : env.rebaseOnto npa.sha oldBase h with _ | newTip
                · simp only [hR] at hok
                  exact absurd hok (by simp)
                · simp only [hR] at hok
                  rcases hRE : removeEdge (setSha (setBase g h (some npa.sha)) h newTip) p h
                    with _ | g2
                  · simp only [hRE] at hok
                    exact absurd hok (by simp)
                  · simp only [hRE] at hok
                    obtain ⟨hpin, hg2⟩ := removeEdge_some _ g2 p h hRE
                    have hg2e : g2.edges = g.edges.erase (p, h) := by
                      rw [hg2]
                      rfl
                    have hg2nd : g2.edges.Nodup := by
                      rw [hg2e]; exact hnd.erase (p, h)
                    have hg3nd : (addEdge g2 np h).edges.Nodup := nodup_addEdge g2 np h hg2nd
                    have hg3fe : edgeFinset (addEdge g2 np h) =
                        insert (np, h) ((edgeFinset g).erase (p, h)) := by
                      rw [edgeFinset_addEdge]
                      unfold edgeFinset
                      rw [hg2e, toFinset_erase_nodup g.edges (p, h) hnd]
                    obtain ⟨c, hcmem, hcreach⟩ :=
                      cycle_after_rewire (edgeFinset g) h p np hreach
                    have hcmem2 : (h, c) ∈ edgeFinset (addEdge g2 np h) := by
                      rw [hg3fe]; exact hcmem
                    have hcs : c ∈ succs (addEdge g2 np h) h :=
                      (mem_succs_iff _ h c).mpr (List.mem_toFinset.mp hcmem2)
                    rcases hK : moveKids env fuel (succs (addEdge g2 np h) h) h (addEdge g2 np h)
                        [Eff.gitRebaseOnto npa.sha oldBase h] with ⟨gk, trk⟩ | ⟨gk, trk⟩
                    · exact ihk (succs (addEdge g2 np h) h) h (addEdge g2 np h)
                        [Eff.gitRebaseOnto npa.sha oldBase h] gk trk hg3nd
                        (fun c2 hc2 => List.mem_toFinset.mpr
                          ((mem_succs_iff (addEdge g2 np h) h c2).mp hc2))
                        ⟨c, hcs, by rw [hg3fe]; exact hcreach⟩ hK
                    · simp only [hK] at hok
                      exact absurd hok (by simp)
          · simp only [hP] at hok
            exact absurd hok (by simp)
    · intro cs x g tr g' tr' hnd hall hex hok
      rcases cs with _ | ⟨c, rest⟩
      · simp at hex
      · simp only [moveKids] at hok
        rcases hMB : moveBranch env fuel g c (env.tip c) x with ⟨g1, tr1⟩ | ⟨g1, tr1⟩
        · simp only [hMB] at hok
          obtain ⟨c0, hc0, hc0r⟩ := hex
          by_cases hcc : ReachStar (edgeFinset g) c x
          · exact ihm g c (env.tip c) x g1 tr1 hnd hcc hMB
          · have hc0rest : c0 ∈ rest := by
              rcases List.mem_cons.mp hc0 with rfl | hr
              · exact absurd hc0r hcc
              · exact hr
            obtain ⟨_, K2, ⟨pc, hpc, hfe⟩, _⟩ :=
              (move_shape env fuel).1 g c (env.tip c) x g1 tr1 hnd hMB
            have hcx : (x, c) ∈ edgeFinset g := hall c (by simp)
            have hpcx : pc = x := by
              have hxm : x ∈ preds g c := mem_preds_of_edge g x c (List.mem_toFinset.mp hcx)
              rw [hpc] at hxm
              have hxp : x = pc := by simpa using hxm
              exact hxp.symm
            have hfe2 : edgeFinset g1 = edgeFinset g := by
              rw [hfe, hpcx]
              exact Finset.insert_erase hcx
            exact ihk rest x g1 _ g' tr' K2
              (by intro c2 hc2; rw [hfe2]; exact hall c2 (by simp [hc2]))
              ⟨c0, hc0rest, by rw [hfe2]; exact hc0r⟩ hok
        · simp only [hMB] at hok
          exact absurd hok (by simp)

/-- Tracked keys have attributes. -/
theorem lookup_isSome_of_mem (g : Graph) (n : String) (hn : n ∈ nodeKeys g) :
    ∃ a, lookupNode g n = some a := by
  unfold lookupNode
  have : ∃ x ∈ g.nodes, (fun q => q.1 == n) x = true := by
    obtain ⟨p, hp, hpe⟩ := List.mem_map.mp hn
    exact ⟨p, hp, by simp [hpe]⟩
  obtain ⟨q, hq⟩ := (List.find?_isSome).mpr this |> Option.isSome_iff_exists.mp
  exact ⟨q.2, by rw [hq]; rfl⟩

/-- The invariant only depends on keys, edges, and the trunk's base. -/
theorem inv_congr (t : String) (g g' : Graph) (hk : nodeKeys g' = nodeKeys g)
    (he : g'.edges = g.edges) (hb : baseOf g' t = baseOf g t) (inv : GInv t g) :
    GInv t g' := by
  have hpreds : ∀ n, preds g' n = preds g n := by
    intro n
    unfold preds
    rw [he]
  have hfe : edgeFinset g' = edgeFinset g := by
    unfold edgeFinset
    rw [he]
  refine ⟨hk ▸ inv.keysNodup, he ▸ inv.edgesNodup, ?_, hk ▸ inv.trunkMem, ?_, ?_, ?_, ?_⟩
  · intro e hee
    rw [he] at hee
    rw [hk]
    exact inv.endpointsMem e hee
  · intro a ha
    have h1 : baseOf g' t = a.base := by
      unfold baseOf
      rw [ha]
      rfl
    have h2 : baseOf g t = none := by
      unfold baseOf
      rcases hl : lookupNode g t with _ | a0
      · rfl
      · simpa using inv.trunkNoBase a0 hl
    rw [h1.symm, hb, h2]
  · rw [hpreds]
    exact inv.trunkNoPreds
  · intro n hn hnt
    rw [he]
    exact inv.othersIndeg n (hk ▸ hn) hnt
  · rw [hfe]
    exact inv.acyclic

/-- The base of the trunk is absent under the invariant. -/
theorem baseOf_none_of_inv (t : String) (g : Graph) (inv : GInv t g) : baseOf g t = none := by
  unfold baseOf
  rcases hl : lookupNode g t with _ | a0
  · rfl
  · simpa using inv.trunkNoBase a0 hl

/-- The invariant holds for the initial one-node trunk graph. -/
theorem inv_initial (t v : String) : GInv t (⟨[(t, { sha := v })], []⟩ : Graph) := by
  refine ⟨by simp [nodeKeys], by simp, ?_, by simp [nodeKeys], ?_, rfl, ?_, ?_⟩
  · intro e he
    simp at he
  · intro a ha
    unfold lookupNode at ha
    simp [List.find?] at ha
    rw [← ha]
  · intro n hn hnt
    unfold nodeKeys at hn
    simp at hn
    exact absurd hn hnt
  · rintro x ⟨w, l, hxw, _⟩
    unfold edgeFinset at hxw
    simp at hxw

/-- Loading re-adds the trunk: the invariant survives. -/
theorem inv_addNodeSha (t v : String) (g : Graph) (inv : GInv t g) :
    GInv t (addNodeSha g t v) := by
  have hmem : hasNode g t = true := (hasNode_iff g t).mpr inv.trunkMem
  unfold addNodeSha
  rw [hmem]
  simp only [if_true]
  obtain ⟨a, ha⟩ := lookup_isSome_of_mem g t inv.trunkMem
  refine inv_congr t g _ (nodeKeys_setSha g t v) rfl ?_ inv
  unfold baseOf
  rw [ha, lookup_setSha_self g t v a ha]
  rfl

/-- Iterated base updates keep the key list. -/
theorem foldl_setBase_keys (head : String) (f : String → Option String) :
    ∀ (l : List String) (g : Graph),
      nodeKeys (l.foldl (fun gg p => setBase gg head (f p)) g) = nodeKeys g := by
  intro l
  induction l with
  | nil => intro g; rfl
  | cons p l ih =>
    intro g
    rw [List.foldl_cons, ih, nodeKeys_setBase]

/-- Iterated base updates keep the edge list. -/
theorem foldl_setBase_edges (head : String) (f : String → Option String) :
    ∀ (l : List String) (g : Graph),
      (l.foldl (fun gg p => setBase gg head (f p)) g).edges = g.edges := by
  intro l
  induction l with
  | nil => intro g; rfl
  | cons p l ih =>
    intro g
    rw [List.foldl_cons, ih]
    rfl

/-- Iterated base updates of one node leave other lookups unchanged. -/
theorem foldl_setBase_lookup_ne (head : String) (f : String → Option String) (m : String)
    (hm : m ≠ head) :
    ∀ (l : List String) (g : Graph),
      lookupNode (l.foldl (fun gg p => setBase gg head (f p)) g) m = lookupNode g m := by
  intro l
  induction l with
  | nil => intro g; rfl
  | cons p l ih =>
    intro g
    rw [List.foldl_cons, ih, lookup_setBase_ne g head (f p) m hm]

/-- Lookup after `setSha`, in map form. -/
theorem lookup_setSha_map (g : Graph) (n v : String) :
    lookupNode (setSha g n v) n = (lookupNode g n).map (fun x => { x with sha := v }) := by
  unfold lookupNode setSha
  refine Eq.trans (congrArg (Option.map Prod.snd)
    (find_mapAttr g.nodes n (fun x => { x with sha := v }))) ?_
  rcases hf : g.nodes.find? (fun p => p.1 == n) with _ | q <;> rw [hf] <;> rfl

/-- The synchronizer pass preserves the invariant. -/
theorem inv_updateBranch (t : String) (env : Env) (g : Graph) (head headSha : String)
    (inv : GInv t g) : GInv t (updateBranch env g head headSha).1 := by
  have hzeta : (updateBranch env g head headSha).1 =
      (preds (setSha g head headSha) head).foldl
        (fun gg p => setBase gg head (some (env.mergeBaseOf p head)))
        (setSha g head headSha) := rfl
  rw [hzeta]
  refine inv_congr t g _ ?_ ?_ ?_ inv
  · rw [foldl_setBase_keys, nodeKeys_setSha]
  · rw [foldl_setBase_edges]
    rfl
  · by_cases hth : t = head
    · subst hth
      rw [show preds (setSha g t headSha) t = preds g t from rfl, inv.trunkNoPreds,
        List.foldl_nil]
      unfold baseOf
      rw [lookup_setSha_map g t headSha]
      rcases hl : lookupNode g t with _ | a <;> rfl
    · unfold baseOf
      rw [foldl_setBase_lookup_ne head _ t hth, lookup_setSha_ne g head headSha t hth]

/-- A node with a parent is not the trunk. -/
theorem ne_trunk_of_preds (t : String) (g : Graph) (h p : String) (inv : GInv t g)
    (hp : preds g h = [p]) : h ≠ t := by
  intro hc
  rw [hc, inv.trunkNoPreds] at hp
  exact List.noConfusion hp

/-- A successful restack preserves the invariant. -/
theorem inv_restack (t : String) (env : Env) (g : Graph) (h s : String) (g' : Graph)
    (tr : List Eff) (inv : GInv t g) (hok : restackBranch env g h s = Res.ok g' tr) :
    GInv t g' := by
  unfold restackBranch at hok
  rcases hA : lookupNode g h with _ | a
  · rw [hA] at hok
    exact absurd hok (by simp)
  · rw [hA] at hok
    simp only [] at hok
    by_cases hsha : a.sha ≠ s
    · rw [if_pos hsha] at hok
      exact absurd hok (by simp)
    · rw [if_neg hsha] at hok
      rcases hP : preds g h with _ | ⟨p, _ | ⟨q, prest⟩⟩
      · simp only [hP] at hok
        exact absurd hok (by simp)
      · simp only [hP] at hok
        rcases hPA : lookupNode g p with _ | pa
        · simp only [hPA] at hok
          exact absurd hok (by simp)
        · simp only [hPA] at hok
          by_cases hr : env.rebaseOk pa.sha = true
          · rw [if_pos hr] at hok
            have hg' : g' = setBase g h (some pa.sha) := by
              have := hok
              simp at this
              exact this.1.symm
            have hht : h ≠ t := ne_trunk_of_preds t g h p inv hP
            rw [hg']
            refine inv_congr t g _ (nodeKeys_setBase g h (some pa.sha)) rfl ?_ inv
            unfold baseOf
            rw [lookup_setBase_ne g h (some pa.sha) t (fun hc => hht hc.symm)]
          · rw [if_neg hr] at hok
            exact absurd hok (by simp)
      · simp only [hP] at hok
        exact absurd hok (by simp)

/-- A successful submit preserves the invariant. -/
theorem inv_submit (t : String) (env : Env) (g : Graph) (h : String) (title : Option String)
    (g' : Graph) (tr : List Eff) (inv : GInv t g)
    (hok : submitPullRequest env g h title = Res.ok g' tr) : GInv t g' := by
  unfold submitPullRequest at hok
  rcases hP : preds g h with _ | ⟨p, _ | ⟨q, prest⟩⟩
  · simp only [hP] at hok
    exact absurd hok (by simp)
  · simp only [hP] at hok
    have hht : h ≠ t := ne_trunk_of_preds t g h p inv hP
    have hbase : ∀ u : Option String, baseOf (setPullUrl g h u) t = baseOf g t := by
      intro u
      unfold baseOf
      rw [lookup_setPullUrl_ne g h u t (fun hc => hht hc.symm)]
    rcases hA : lookupNode g h with _ | a
    · simp only [hA] at hok
      exact absurd hok (by simp)
    · simp only [hA] at hok
      rcases hu : a.pull_url with _ | pu
      · simp only [hu] at hok
        rcases hO : env.originRepo with _ | repo
        · simp only [hO] at hok
          exact absurd hok (by simp)
        · simp only [hO] at hok
          by_cases h422 : ((env.createResp true).1 == 422) = true
          · rw [if_pos h422] at hok
            have hg' : g' = setPullUrl g h
                (some (joinUrl env.githubApi (env.createResp false).2)) := by
              have := hok
              simp at this
              exact this.1.symm
            rw [hg']
            exact inv_congr t g _ (nodeKeys_setPullUrl g h _) rfl (hbase _) inv
          · rw [if_neg (by simpa using h422)] at hok
            have hg' : g' = setPullUrl g h
                (some (joinUrl env.githubApi (env.createResp true).2)) := by
              have := hok
              simp at this
              exact this.1.symm
            rw [hg']
            exact inv_congr t g _ (nodeKeys_setPullUrl g h _) rfl (hbase _) inv
      · simp only [hu] at hok
        by_cases hS : 200 ≤ env.updateStatus ∧ env.updateStatus < 299
        · rw [if_pos hS] at hok
          have hg' : g' = g := by
            have := hok
            simp at this
            exact this.1.symm
          rw [hg']
          exact inv
        · rw [if_neg hS] at hok
          exact absurd hok (by simp)
  · simp only [hP] at hok
    exact absurd hok (by simp)

/-- Descents along unique in-edges eventually cycle: under the invariant a
childless trunk admits no other node. -/
theorem trunk_childless_alone (t : String) (g : Graph) (inv : GInv t g)
    (hsucc : succs g t = []) : ∀ x ∈ nodeKeys g, x = t := by
  intro x hx
  by_contra hxt
  set f : String → String :=
    fun n => ((g.edges.filter (fun e => e.2 == n)).map Prod.fst).headI with hf
  set S : Finset String := (nodeKeys g).toFinset.erase t with hS
  have hstep : ∀ n ∈ S, f n ∈ S ∧ (f n, n) ∈ edgeFinset g := by
    intro n hn
    obtain ⟨hnt, hnk⟩ := Finset.mem_erase.mp hn
    have hnk2 : n ∈ nodeKeys g := List.mem_toFinset.mp hnk
    have hlen := inv.othersIndeg n hnk2 hnt
    obtain ⟨e, he⟩ := List.length_eq_one.mp hlen
    have hemem : e ∈ g.edges := by
      have : e ∈ g.edges.filter (fun e => e.2 == n) := by
        rw [he]; simp
      exact List.mem_of_mem_filter this
    have he2 : e.2 = n := by
      have : e ∈ g.edges.filter (fun e => e.2 == n) := by
        rw [he]; simp
      simpa using (List.mem_filter.mp this).2
    have hfn : f n = e.1 := by
      rw [hf]
      simp only []
      rw [he]
      rfl
    have he1t : ¬ e.1 = t := by
      intro hc
      exact (no_out_of_succs g t hsucc) e hemem hc
    have he1k : e.1 ∈ nodeKeys g := (inv.endpointsMem e hemem).1
    constructor
    · rw [hS, hfn]
      exact Finset.mem_erase.mpr ⟨he1t, List.mem_toFinset.mpr he1k⟩
    · rw [hfn]
      have : (e.1, n) = e := by
        rcases e with ⟨a, b⟩
        simp only at he2
        rw [he2]
      rw [this]
      exact List.mem_toFinset.mpr hemem
  have hxS : x ∈ S := Finset.mem_erase.mpr ⟨hxt, List.mem_toFinset.mpr hx⟩
  have hiter : ∀ k : Nat, f^[k] x ∈ S := by
    intro k
    induction k with
    | zero => exact hxS
    | succ k ihk =>
      rw [Function.iterate_succ_apply']
      exact (hstep _ ihk).1
  have hreach : ∀ d : Nat, ∀ y, (∀ k : Nat, f^[k] y ∈ S) →
      ReachStar (edgeFinset g) (f^[d] y) y := by
    intro d
    induction d with
    | zero => intro y _; exact reachStar_refl _ y
    | succ d ihd =>
      intro y hy
      rw [Function.iterate_succ_apply']
      exact reachStar_cons _ _ _ _ (hstep _ (hy d)).2 (ihd y hy)
  have key : ∀ i j : Nat, i < j → f^[i] x = f^[j] x → False := by
    intro i j hlt heq
    have hy : ∀ k : Nat, f^[k] (f^[i] x) ∈ S := by
      intro k
      rw [← Function.iterate_add_apply]
      exact hiter (k + i)
    obtain ⟨e, he⟩ : ∃ e, j - i = e + 1 :=
      ⟨j - i - 1, by omega⟩
    have hcy : f^[e + 1] (f^[i] x) = f^[i] x := by
      rw [← Function.iterate_add_apply, ← he]
      rw [show j - i + i = j from by omega]
      exact heq.symm
    have hplus : ReachPlus (edgeFinset g) (f^[e + 1] (f^[i] x)) (f^[i] x) := by
      rw [Function.iterate_succ_apply']
      obtain ⟨l, hl⟩ := hreach e (f^[i] x) hy
      exact ⟨f^[e] (f^[i] x), l, (hstep _ (hy e)).2, hl⟩
    rw [hcy] at hplus
    exact inv.acyclic _ hplus
  have hcard : S.card < (Finset.range (S.card + 1)).card := by simp
  obtain ⟨i, hi, j, hj, hij, heq⟩ :=
    Finset.exists_ne_map_eq_of_card_lt_of_maps_to hcard (fun k _ => hiter k)
  rcases lt_trichotomy i j with hlt | heqq | hgt
  · exact key i j hlt heq
  · exact hij heqq
  · exact key j i hgt heq.symm

/-- Keys after `remove_node`. -/
theorem nodeKeys_removeNode (g : Graph) (old : String) :
    nodeKeys (removeNode g old) = (nodeKeys g).filter (fun k => !(k == old)) := by
  unfold nodeKeys removeNode
  simp only []
  induction g.nodes with
  | nil => rfl
  | cons p l ih =>
    rw [List.filter_cons, List.map_cons, List.filter_cons]
    cases hbo : (p.1 == old)
    · simp only [Bool.not_false, if_true, List.map_cons]
      rw [ih]
    · simp only [Bool.not_true, Bool.false_eq_true, if_false]
      exact ih

/-- Association search ignores entries removed under a different key. -/
theorem find_filter_ne (l : List (String × NodeAttrs)) (old m : String) (hm : m ≠ old) :
    (l.filter (fun p => !(p.1 == old))).find? (fun p => p.1 == m)
      = l.find? (fun p => p.1 == m) := by
  induction l with
  | nil => rfl
  | cons p l ih =>
    rw [List.filter_cons]
    cases hbo : (p.1 == old)
    · simp only [Bool.not_false, if_true]
      cases hbm : (p.1 == m)
      · simp only [List.find?_cons, hbm]
        exact ih
      · simp only [List.find?_cons, hbm]
    · have hbm : (p.1 == m) = false := by
        have hp : p.1 = old := by simpa using hbo
        rw [hp]
        exact beq_eq_false_iff_ne.mpr (Ne.symm hm)
      simp only [Bool.not_true, Bool.false_eq_true, if_false]
      simp only [List.find?_cons, hbm]
      exact ih

/-- Lookup of a different node after `remove_node`. -/
theorem lookup_removeNode_ne (g : Graph) (old m : String) (hm : m ≠ old) :
    lookupNode (removeNode g old) m = lookupNode g m := by
  unfold lookupNode removeNode
  simp only []
  rw [find_filter_ne g.nodes old m hm]

/-- Removing a childless non-trunk node preserves the invariant. -/
theorem inv_removeNode (t : String) (g : Graph) (old : String) (inv : GInv t g)
    (hot : old ≠ t) (hsucc : succs g old = []) : GInv t (removeNode g old) := by
  have hout := no_out_of_succs g old hsucc
  have hk := nodeKeys_removeNode g old
  have hesub : ∀ e, e ∈ (removeNode g old).edges → e ∈ g.edges := by
    intro e he
    exact List.mem_of_mem_filter he
  have hfsub : edgeFinset (removeNode g old) ⊆ edgeFinset g := by
    intro e he
    exact List.mem_toFinset.mpr (hesub e (List.mem_toFinset.mp he))
  refine ⟨?_, ?_, ?_, ?_, ?_, ?_, ?_, ?_⟩
  · rw [hk]
    exact inv.keysNodup.filter _
  · exact inv.edgesNodup.filter _
  · intro e he
    have hem := hesub e he
    have hinc := List.mem_filter.mp he |>.2
    have h1 : (e.1 == old) = false := by
      cases hb : (e.1 == old)
      · rfl
      · rw [hb] at hinc
        simp at hinc
    have h2 : (e.2 == old) = false := by
      cases hb : (e.2 == old)
      · rfl
      · rw [hb] at hinc
        simp at hinc
    obtain ⟨hm1, hm2⟩ := inv.endpointsMem e hem
    rw [hk]
    exact ⟨List.mem_filter.mpr ⟨hm1, by simp [h1]⟩, List.mem_filter.mpr ⟨hm2, by simp [h2]⟩⟩
  · rw [hk]
    refine List.mem_filter.mpr ⟨inv.trunkMem, ?_⟩
    simp [beq_eq_false_iff_ne.mpr (Ne.symm hot)]
  · intro a ha
    rw [lookup_removeNode_ne g old t (Ne.symm hot)] at ha
    exact inv.trunkNoBase a ha
  · rw [preds_nil_iff]
    intro e he hc
    exact (preds_nil_iff g t).mp inv.trunkNoPreds e (hesub e he) hc
  · intro n hn hnt
    rw [hk] at hn
    obtain ⟨hnk, hno⟩ := List.mem_filter.mp hn
    have hnold : ¬ n = old := by
      intro hc
      rw [hc] at hno
      simp at hno
    have hfeq : (removeNode g old).edges.filter (fun e => e.2 == n) =
        g.edges.filter (fun e => e.2 == n) := by
      unfold removeNode
      simp only []
      rw [List.filter_filter]
      apply List.filter_congr
      intro e he
      cases hb : (e.2 == n)
      · simp
      · have he2 : e.2 = n := by simpa using hb
        have hb1 : (e.1 == old) = false := by
          refine beq_eq_false_iff_ne.mpr ?_
          exact fun hc => hout e he hc
        have hb2 : (e.2 == old) = false := by
          rw [he2]
          exact beq_eq_false_iff_ne.mpr hnold
        rw [hb1, hb2]
        rfl
    rw [hfeq]
    exact inv.othersIndeg n hnk hnt
  · exact acyclic_mono _ _ hfsub inv.acyclic

/-- A successful forget preserves the invariant (the trunk can never be
the removed node while another tracked branch is checked out). -/
theorem inv_forget (t : String) (g : Graph) (head old : String) (g' : Graph)
    (tr : List Eff) (inv : GInv t g) (hhead : head ∈ nodeKeys g)
    (hok : forgetBranch g head old = Res.ok g' tr) : GInv t g' := by
  unfold forgetBranch at hok
  by_cases hoe : old = head
  · have hb : (old == head) = true := by simp [hoe]
    rw [hb] at hok
    simp at hok
  · have hb : (old == head) = false := by simp [hoe]
    rw [hb] at hok
    simp only [Bool.false_eq_true, if_false] at hok
    rcases hsucc : succs g old with _ | ⟨c, cs⟩
    · simp only [hsucc] at hok
      by_cases hmem : hasNode g old = true
      · rw [hmem] at hok
        simp at hok
        obtain ⟨h1, _⟩ := hok
        have hot : old ≠ t := by
          intro hc
          subst hc
          exact hoe (trunk_childless_alone old g inv hsucc head hhead).symm
        exact h1 ▸ inv_removeNode t g old inv hot hsucc
      · have hmem2 : hasNode g old = false := by
          cases hb2 : hasNode g old
          · rfl
          · exact absurd hb2 hmem
        rw [hmem2] at hok
        simp at hok
    · simp only [hsucc] at hok
      exact absurd hok (by simp)

/-- Absence from the key list, boolean form. -/
theorem not_mem_of_hasNode_false (g : Graph) (n : String) (h : hasNode g n = false) :
    n ∉ nodeKeys g := by
  intro hmem
  rw [(hasNode_iff g n).mpr hmem] at h
  exact Bool.noConfusion h

/-- The sha index returns a tracked node name. -/
theorem shaLookup_mem (g : Graph) (s u : String) (h : shaLookup g s = some u) :
    u ∈ nodeKeys g := by
  unfold shaLookup at h
  rcases hf : (g.nodes.map (fun p => (p.2.sha, p.1))).reverse.find? (fun q => q.1 == s)
    with _ | q
  · rw [hf] at h
    exact absurd h (by simp)
  · rw [hf] at h
    have hq : q.2 = u := by simpa using h
    have hqm := List.mem_reverse.mp (List.mem_of_find?_eq_some hf)
    obtain ⟨p, hp, hpq⟩ := List.mem_map.mp hqm
    have : p.1 = q.2 := congrArg Prod.snd hpq
    rw [← hq, ← this]
    exact List.mem_map_of_mem Prod.fst hp

/-- Counting with a duplicate-free list equals counting in its set. -/
theorem length_filter_eq_card (l : List (String × String)) (hnd : l.Nodup)
    (pr : (String × String) → Bool) :
    (l.filter pr).length = (l.toFinset.filter (fun e => pr e = true)).card := by
  have h1 : (l.filter pr).toFinset = l.toFinset.filter (fun e => pr e = true) := by
    apply Finset.ext
    intro e
    rw [List.mem_toFinset, List.mem_filter, Finset.mem_filter, List.mem_toFinset]
  rw [← h1, List.card_toFinset, List.Nodup.dedup (hnd.filter pr)]

/-- Counting with a duplicate-free edge list equals counting in the edge
set. -/
theorem length_filter_eq_card_g (g : Graph) (hnd : g.edges.Nodup)
    (pr : (String × String) → Bool) :
    (g.edges.filter pr).length = ((edgeFinset g).filter (fun e => pr e = true)).card := by
  unfold edgeFinset
  exact length_filter_eq_card g.edges hnd pr

/-- A successful move preserves the invariant: the rewired edge keeps
in-degrees intact, and since a cycle-creating move can never succeed the
edge set stays acyclic. -/
theorem inv_move (t : String) (env : Env) (fuel : Nat) (g : Graph) (h s np : String)
    (g' : Graph) (tr : List Eff) (inv : GInv t g) (hnp : np ∈ nodeKeys g)
    (hok : moveBranch env fuel g h s np = Res.ok g' tr) : GInv t g' := by
  obtain ⟨K1, K2, ⟨p, hP, K3⟩, K4⟩ :=
    (move_shape env fuel).1 g h s np g' tr inv.edgesNodup hok
  have hpin : (p, h) ∈ g.edges := mem_edges_of_preds g h p hP
  have hhk : h ∈ nodeKeys g := (inv.endpointsMem (p, h) hpin).2
  have hht : h ≠ t := ne_trunk_of_preds t g h p inv hP
  have hnr : ¬ ReachStar (edgeFinset g) h np := by
    intro hr
    exact (move_nt env fuel).1 g h s np g' tr inv.edgesNodup hr hok
  obtain ⟨Kt1, Kt2⟩ := K4 t inv.trunkNoPreds
  refine ⟨K1 ▸ inv.keysNodup, K2, ?_, K1 ▸ inv.trunkMem, ?_, Kt1, ?_, ?_⟩
  · intro e he
    have hef : e ∈ edgeFinset g' := List.mem_toFinset.mpr he
    rw [K3] at hef
    rw [K1]
    rcases Finset.mem_insert.mp hef with rfl | hmem
    · exact ⟨hnp, hhk⟩
    · have : e ∈ g.edges := List.mem_toFinset.mp (Finset.mem_of_mem_erase hmem)
      exact inv.endpointsMem e this
  · intro a ha
    rw [Kt2] at ha
    exact inv.trunkNoBase a ha
  · intro n hn hnt
    rw [K1] at hn
    rw [length_filter_eq_card_g g' K2, K3]
    by_cases hnh : n = h
    · subst hnh
      rw [Finset.filter_insert]
      rw [if_pos (by simp)]
      rw [Finset.filter_erase]
      have hfl : (edgeFinset g).filter (fun e => ((fun e => e.2 == n) e : Bool) = true) =
          ({(p, n)} : Finset (String × String)) := by
        apply Finset.ext
        intro e
        rw [Finset.mem_filter, Finset.mem_singleton]
        constructor
        · rintro ⟨hmem, hpr⟩
          have he2 : e ∈ g.edges.filter (fun e => e.2 == n) :=
            List.mem_filter.mpr ⟨List.mem_toFinset.mp hmem, by simpa using hpr⟩
          rw [filter_tgt_of_preds g n p hP] at he2
          simpa using he2
        · rintro rfl
          exact ⟨List.mem_toFinset.mpr hpin, by simp⟩
      rw [hfl, Finset.erase_singleton]
      simp
    · rw [Finset.filter_insert, if_neg (by simp [Ne.symm hnh])]
      rw [Finset.filter_erase]
      rw [Finset.erase_eq_of_not_mem (by
        rw [Finset.mem_filter]
        rintro ⟨_, hpr⟩
        exact hnh (show h = n by simpa using hpr).symm)]
      rw [← length_filter_eq_card_g g inv.edgesNodup]
      exact inv.othersIndeg n hn hnt
  · rw [K3]
    refine acyclic_insert _ np h (acyclic_mono _ _ (Finset.erase_subset _ _) inv.acyclic) ?_
    intro hr
    exact hnr (reachStar_mono _ _ (Finset.erase_subset _ _) h np hr)

/-- Association search ignores a fresh entry appended under another key. -/
theorem find_append_single_ne (l : List (String × NodeAttrs)) (head m : String)
    (a : NodeAttrs) (hm : m ≠ head) :
    (l ++ [(head, a)]).find? (fun p => p.1 == m) = l.find? (fun p => p.1 == m) := by
  induction l with
  | nil =>
    simp only [List.nil_append, List.find?]
    rw [show ((head, a).1 == m) = false from beq_eq_false_iff_ne.mpr (Ne.symm hm)]
  | cons p l ih =>
    rw [List.cons_append]
    simp only [List.find?_cons]
    cases hb : (p.1 == m)
    · exact ih
    · rfl

/-- Shape of `add_branch`'s node insertion when the branch is new. -/
theorem addNodeShaBase_fresh (g : Graph) (head s : String) (b : Option String)
    (hfresh : hasNode g head = false) :
    addNodeShaBase g head s b =
      { g with nodes := g.nodes ++ [(head, { sha := s, base := b })] } := by
  unfold addNodeShaBase
  rw [hfresh]
  simp only [Bool.false_eq_true, if_false]

/-- A successful `add_branch` on a new branch preserves the invariant: the
fresh node gets exactly one in-edge from a tracked parent, and a node with
no outgoing edges can close no cycle. -/
theorem inv_addBranch (t : String) (env : Env) (g : Graph) (pSha head headSha : String)
    (g' : Graph) (tr : List Eff) (inv : GInv t g) (hfresh : hasNode g head = false)
    (hok : addBranch env g pSha head headSha = Res.ok g' tr) : GInv t g' := by
  have hnm : head ∉ nodeKeys g := not_mem_of_hasNode_false g head hfresh
  unfold addBranch at hok
  by_cases hsl : env.shaList.contains headSha = true
  · rw [if_pos hsl] at hok
    rcases hu : shaLookup g pSha with _ | u
    · simp only [hu] at hok
      exact absurd hok (by simp)
    · simp only [hu] at hok
      have hg' : g' = addEdge (addNodeShaBase g head headSha (some headSha)) u head := by
        have := hok
        simp at this
        exact this.1.symm
      have hg1 := addNodeShaBase_fresh g head headSha (some headSha) hfresh
      set g1 := addNodeShaBase g head headSha (some headSha) with hg1def
      have hg1n : g1.nodes = g.nodes ++ [(head, { sha := headSha, base := some headSha })] := by
        rw [hg1]
      have hg1e : g1.edges = g.edges := by rw [hg1]
      have hkeys1 : nodeKeys g1 = nodeKeys g ++ [head] := by
        unfold nodeKeys
        rw [hg1n, List.map_append]
        rfl
      have humem : u ∈ nodeKeys g := shaLookup_mem g pSha u hu
      have hhu : head ≠ u := fun hc => hnm (hc ▸ humem)
      have hnoend : ∀ e ∈ g.edges, ¬ e.1 = head ∧ ¬ e.2 = head := by
        intro e he
        exact ⟨fun hc => hnm (hc ▸ (inv.endpointsMem e he).1),
               fun hc => hnm (hc ▸ (inv.endpointsMem e he).2)⟩
      have hnew : (u, head) ∉ g1.edges := by
        rw [hg1e]
        intro hc
        exact (hnoend (u, head) hc).2 rfl
      have hcont : g1.edges.contains (u, head) = false := by simpa using hnew
      have hg'e : g'.edges = g.edges ++ [(u, head)] := by
        rw [hg']
        unfold addEdge
        rw [hcont]
        simp only [Bool.false_eq_true, if_false]
        show g1.edges ++ [(u, head)] = g.edges ++ [(u, head)]
        rw [hg1e]
      have hkeys' : nodeKeys g' = nodeKeys g ++ [head] := by
        rw [hg', nodeKeys_addEdge, hkeys1]
      have hlook' : ∀ m, m ≠ head → lookupNode g' m = lookupNode g m := by
        intro m hmne
        rw [hg', lookup_addEdge]
        unfold lookupNode
        rw [hg1n, find_append_single_ne g.nodes head m _ hmne]
      have htk : t ∈ nodeKeys g := inv.trunkMem
      have hth : t ≠ head := fun hc => hnm (hc ▸ htk)
      refine ⟨?_, ?_, ?_, ?_, ?_, ?_, ?_, ?_⟩
      · rw [hkeys']
        rw [List.nodup_append]
        refine ⟨inv.keysNodup, List.nodup_singleton head, ?_⟩
        intro x hx hx1
        have : x = head := by simpa using hx1
        exact hnm (this ▸ hx)
      · rw [hg'e]
        rw [List.nodup_append]
        refine ⟨inv.edgesNodup, List.nodup_singleton _, ?_⟩
        intro e he he1
        have : e = (u, head) := by simpa using he1
        exact (hnoend e he).2 (by rw [this])
      · intro e he
        rw [hg'e] at he
        rw [hkeys']
        rcases List.mem_append.mp he with hg0 | hnewm
        · obtain ⟨h1, h2⟩ := inv.endpointsMem e hg0
          exact ⟨List.mem_append_left _ h1, List.mem_append_left _ h2⟩
        · have : e = (u, head) := by simpa using hnewm
          subst this
          exact ⟨List.mem_append_left _ humem, List.mem_append_right _ (by simp)⟩
      · rw [hkeys']
        exact List.mem_append_left _ htk
      · intro a ha
        rw [hlook' t hth] at ha
        exact inv.trunkNoBase a ha
      · rw [preds_nil_iff]
        intro e he hc
        rw [hg'e] at he
        rcases List.mem_append.mp he with hg0 | hnewm
        · exact (preds_nil_iff g t).mp inv.trunkNoPreds e hg0 hc
        · have : e = (u, head) := by simpa using hnewm
          rw [this] at hc
          exact hth (hc.symm)
      · intro n hn hnt
        rw [hkeys'] at hn
        rw [hg'e, List.filter_append]
        by_cases hnh : n = head
        · subst hnh
          have h1 : g.edges.filter (fun e => e.2 == n) = [] := by
            rw [List.filter_eq_nil_iff]
            intro e he
            simpa using (hnoend e he).2
          have h2 : ([(u, n)] : List (String × String)).filter (fun e => e.2 == n)
              = [(u, n)] := by simp
          rw [h1, h2]
          rfl
        · have hng : n ∈ nodeKeys g := by
            rcases List.mem_append.mp hn with h0 | h1
            · exact h0
            · exact absurd (by simpa using h1) hnh
          have h2 : ([(u, head)] : List (String × String)).filter (fun e => e.2 == n)
              = [] := by
            simp [beq_eq_false_iff_ne.mpr (fun hc => hnh hc.symm)]
          rw [h2, List.append_nil]
          exact inv.othersIndeg n hng hnt
      · have hfe : edgeFinset g' = insert (u, head) (edgeFinset g) := by
          unfold edgeFinset
          rw [hg'e, List.toFinset_append, Finset.union_comm]
          simp [Finset.insert_eq]
        rw [hfe]
        refine acyclic_insert _ u head inv.acyclic ?_
        rintro ⟨l, hl⟩
        rcases l with _ | ⟨w, l⟩
        · exact hhu hl
        · obtain ⟨hmem, _⟩ := hl
          exact (hnoend (head, w) (List.mem_toFinset.mp hmem)).1 rfl
  · rw [if_neg hsl] at hok
    have hg' : g' = g := by
      have := hok
      simp at this
      exact this.1.symm
    rw [hg']
    exact inv

/-- The action dispatch preserves the invariant: every operator that
returns normally hands `read_graph` an invariant graph to persist. -/
theorem inv_runAct (t : String) (env : Env) (g2 : Graph) (head headSha : String)
    (act : Act) (args : List String) (fuel : Nat) (tr1 : List Eff) (g' : Graph)
    (tr : List Eff) (hg2 : GInv t g2)
    (hc : runAct env g2 head headSha act args fuel tr1 = RunRes.completed g' tr) :
    GInv t g' := by
  unfold runAct at hc
  cases act with
  | postCommit =>
    simp only [] at hc
    have h1 : g2 = g' := by
      have := hc
      simp at this
      exact this.1
    exact h1 ▸ hg2
  | restack =>
    simp only [] at hc
    by_cases hhn : hasNode g2 head = true
    · rw [if_pos hhn] at hc
      rcases hr : restackBranch env g2 head headSha with ⟨gf, trf⟩ | ⟨gf, trf⟩
      ·
        simp only [hr] at hc
        have h1 : gf = g' := by
          have := hc
          simp at this
          exact this.1
        exact h1 ▸ inv_restack t env g2 head headSha gf trf hg2 hr
      ·
        simp only [hr] at hc
        exact absurd hc (by simp)
    · rw [if_neg hhn] at hc
      exact absurd hc (by simp)
  | moveOnto =>
    simp only [] at hc
    rcases args with _ | ⟨np, _ | ⟨x, rest⟩⟩
    · simp only [] at hc
      exact absurd hc (by simp)
    · simp only [] at hc
      by_cases hnn : (hasNode g2 np && hasNode g2 head) = true
      · rw [if_pos hnn] at hc
        have hnpk : np ∈ nodeKeys g2 :=
          (hasNode_iff g2 np).mp ((Bool.and_eq_true _ _).mp hnn).1
        rcases hr : moveBranch env fuel g2 head headSha np with ⟨gf, trf⟩ | ⟨gf, trf⟩
        ·
          simp only [hr] at hc
          have h1 : gf = g' := by
            have := hc
            simp at this
            exact this.1
          exact h1 ▸ inv_move t env fuel g2 head headSha np gf trf hg2 hnpk hr
        ·
          simp only [hr] at hc
          exact absurd hc (by simp)
      · rw [if_neg hnn] at hc
        exact absurd hc (by simp)
    · simp only [] at hc
      exact absurd hc (by simp)
  | submit =>
    simp only [] at hc
    by_cases hhn : hasNode g2 head = true
    · rw [if_pos hhn] at hc
      rcases args with _ | ⟨t1, _ | ⟨x, rest⟩⟩
      · simp only [] at hc
        rcases hr : submitPullRequest env g2 head none with ⟨gf, trf⟩ | ⟨gf, trf⟩
        ·
          simp only [hr] at hc
          have h1 : gf = g' := by
            have := hc
            simp at this
            exact this.1
          exact h1 ▸ inv_submit t env g2 head none gf trf hg2 hr
        ·
          simp only [hr] at hc
          exact absurd hc (by simp)
      · simp only [] at hc
        rcases hr : submitPullRequest env g2 head (some t1) with ⟨gf, trf⟩ | ⟨gf, trf⟩
        ·
          simp only [hr] at hc
          have h1 : gf = g' := by
            have := hc
            simp at this
            exact this.1
          exact h1 ▸ inv_submit t env g2 head (some t1) gf trf hg2 hr
        ·
          simp only [hr] at hc
          exact absurd hc (by simp)
      · simp only [] at hc
        exact absurd hc (by simp)
    · rw [if_neg hhn] at hc
      exact absurd hc (by simp)
  | forget =>
    simp only [] at hc
    rcases args with _ | ⟨old, _ | ⟨x, rest⟩⟩
    · simp only [] at hc
      exact absurd hc (by simp)
    · simp only [] at hc
      by_cases hnn : (hasNode g2 old && hasNode g2 head) = true
      · rw [if_pos hnn] at hc
        have hhk : head ∈ nodeKeys g2 :=
          (hasNode_iff g2 head).mp ((Bool.and_eq_true _ _).mp hnn).2
        rcases hr : forgetBranch g2 head old with ⟨gf, trf⟩ | ⟨gf, trf⟩
        ·
          simp only [hr] at hc
          have h1 : gf = g' := by
            have := hc
            simp at this
            exact this.1
          exact h1 ▸ inv_forget t g2 head old gf trf hg2 hhk hr
        ·
          simp only [hr] at hc
          exact absurd hc (by simp)
      · rw [if_neg hnn] at hc
        exact absurd hc (by simp)
    · simp only [] at hc
      exact absurd hc (by simp)
  | postCheckout =>
    simp only [] at hc
    by_cases hhn : hasNode g2 head = true
    · rw [if_pos hhn] at hc
      have h1 : g2 = g' := by
        have := hc
        simp at this
        exact this.1
      exact h1 ▸ hg2
    · rw [if_neg hhn] at hc
      rcases args with _ | ⟨pSha, _ | ⟨isB, _ | rest⟩⟩
      · simp only [] at hc
        exact absurd hc (by simp)
      · simp only [] at hc
        exact absurd hc (by simp)
      · simp only [] at hc
        by_cases hib : (isB == "1") = true
        · rw [if_pos hib] at hc
          have hfresh : hasNode g2 head = false := Bool.eq_false_iff.mpr hhn
          rcases hr : addBranch env g2 pSha head headSha with ⟨gf, trf⟩ | ⟨gf, trf⟩
          ·
            simp only [hr] at hc
            have h1 : gf = g' := by
              have := hc
              simp at this
              exact this.1
            exact h1 ▸ inv_addBranch t env g2 pSha head headSha gf trf hg2 hfresh hr
          ·
            simp only [hr] at hc
            exact absurd hc (by simp)
        · rw [if_neg hib] at hc
          have h1 : g2 = g' := by
            have := hc
            simp at this
            exact this.1
          exact h1 ▸ hg2
      · simp only [] at hc
        exact absurd hc (by simp)

/-- The post-load body preserves the invariant. -/
theorem inv_runBody (t : String) (env : Env) (g1 : Graph) (act : Act)
    (args : List String) (fuel : Nat) (tr0 : List Eff) (g' : Graph) (tr : List Eff)
    (hg1 : GInv t g1)
    (hc : runBody env g1 act args fuel tr0 = RunRes.completed g' tr) : GInv t g' := by
  unfold runBody at hc
  by_cases hH : (env.headBranch0 == "HEAD") = true
  · rw [if_pos hH] at hc
    have h1 : g1 = g' := by
      have := hc
      simp at this
      exact this.1
    exact h1 ▸ hg1
  · rw [if_neg hH] at hc
    simp only [] at hc
    by_cases hhn : hasNode g1 env.headBranch0 = true
    · rw [if_pos hhn] at hc
      exact inv_runAct t env _ env.headBranch0 (env.tip env.headBranch0) act args fuel _ g' tr
        (inv_updateBranch t env g1 env.headBranch0 (env.tip env.headBranch0) hg1) hc
    · rw [if_neg hhn] at hc
      exact inv_runAct t env _ env.headBranch0 (env.tip env.headBranch0) act args fuel _ g' tr
        hg1 hc

/-- A completed invocation that observes trunk `t` persists an invariant
graph, provided the loaded file satisfied the invariant (or was absent). -/
theorem inv_runMain (t : String) (env : Env) (file : Option Graph) (act : Act)
    (args : List String) (fuel : Nat) (g' : Graph) (tr : List Eff)
    (hinv : ∀ g0, file = some g0 → GInv t g0) (ht : env.mainBranch.1 = t)
    (hc : runMain env file act args fuel = RunRes.completed g' tr) : GInv t g' := by
  unfold runMain at hc
  by_cases hss : env.stackyStacky = true
  · rw [if_pos hss] at hc
    exact absurd hc (by simp)
  · rw [if_neg hss] at hc
    rw [ht] at hc
    rcases file with _ | f
    · simp only [] at hc
      have hg1 : GInv t (addNodeSha ⟨[], []⟩ t env.mainBranch.2) := by
        have he : addNodeSha (⟨[], []⟩ : Graph) t env.mainBranch.2
            = ⟨[(t, { sha := env.mainBranch.2 })], []⟩ := rfl
        rw [he]
        exact inv_initial t env.mainBranch.2
      exact inv_runBody t env _ act args fuel _ g' tr hg1 hc
    · simp only [] at hc
      exact inv_runBody t env _ act args fuel _ g' tr
        (inv_addNodeSha t env.mainBranch.2 f (hinv f rfl)) hc

/-- One invocation observing trunk `t` keeps the invariant of the file. -/
theorem inv_runFile (t : String) (env : Env) (file : Option Graph) (act : Act)
    (args : List String) (fuel : Nat) (g' : Graph)
    (hinv : ∀ g0, file = some g0 → GInv t g0) (ht : env.mainBranch.1 = t)
    (hf : runFile env file act args fuel = some g') : GInv t g' := by
  unfold runFile at hf
  rcases hm : runMain env file act args fuel with _ | ⟨gg, trr⟩ | ⟨gg, trr⟩
  · simp only [hm] at hf
    exact hinv g' hf
  · simp only [hm] at hf
    have h1 : gg = g' := by simpa using hf
    exact h1 ▸ inv_runMain t env file act args fuel gg trr hinv ht hm
  · simp only [hm] at hf
    exact hinv g' hf

/-- Every reachable nonempty file state satisfies the invariant. -/
theorem reach_inv (t : String) (fs : Option Graph) (h : ReachableFrom t fs) :
    ∀ g, fs = some g → GInv t g := by
  induction h with
  | init =>
    intro g hg
    exact absurd hg (by simp)
  | step env a args fuel fs0 h0 ht ih =>
    intro g hg
    exact inv_runFile t env fs0 a args fuel g ih ht hg

/-- Filtering a duplicate-free list by a predicate with a unique satisfier
yields that one element. -/
theorem filter_eq_singleton_of_unique (x : String) (p : String → Bool) :
    ∀ l : List String, l.Nodup → x ∈ l → (∀ y ∈ l, p y = true ↔ y = x) →
      l.filter p = [x] := by
  intro l
  induction l with
  | nil =>
    intro _ hx _
    exact absurd hx (List.not_mem_nil x)
  | cons a l ih =>
    intro hl hx hp
    rw [List.filter_cons]
    rcases List.mem_cons.mp hx with rfl | hxl
    · rw [if_pos ((hp x (List.mem_cons_self x l)).mpr rfl)]
      have hnil : l.filter p = [] := by
        rw [List.filter_eq_nil_iff]
        intro y hy hpy
        have hya : y = x := (hp y (List.mem_cons_of_mem x hy)).mp hpy
        exact (List.nodup_cons.mp hl).1 (hya ▸ hy)
      rw [hnil]
    · have hax : ¬ a = x := by
        intro hcc
        exact (List.nodup_cons.mp hl).1 (hcc ▸ hxl)
      rw [if_neg (fun hpa => hax ((hp a (List.mem_cons_self a l)).mp hpa))]
      exact ih (List.nodup_cons.mp hl).2 hxl (fun y hy => hp y (List.mem_cons_of_mem a hy))

/-- Under the invariant the trunk is the only root node. -/
theorem rootNodes_of_inv (t : String) (g : Graph) (inv : GInv t g) :
    rootNodes g = [t] := by
  unfold rootNodes
  refine filter_eq_singleton_of_unique t _ (nodeKeys g) inv.keysNodup inv.trunkMem ?_
  intro n hn
  constructor
  · intro he
    by_contra hnt
    have hlen := inv.othersIndeg n hn hnt
    rw [List.isEmpty_iff] at he
    rw [he] at hlen
    simp at hlen
  · rintro rfl
    have h0 : g.edges.filter (fun e => e.2 == n) = [] := by
      have hpr := inv.trunkNoPreds
      unfold preds at hpr
      exact List.map_eq_nil_iff.mp hpr
    rw [h0]
    rfl

/-- Claim C8 (amended): for every file state reachable by invocations that
all observe the same trunk branch name `t` — after load and after each of
synchronize, restack, move, submit, forget — the persisted graph has
exactly one root node, namely the trunk `t`, the trunk carries no `base`
field, and the trunk node is never removed.  (When the observed trunk name
changes between runs, `read_graph` re-adds the new trunk and a second root
appears, as the counterexample shows.) -/
theorem claim_c8_amended (t : String) (fs : Option Graph) (h : ReachableFrom t fs) :
    ∀ g, fs = some g → rootNodes g = [t] ∧ baseOf g t = none ∧ t ∈ nodeKeys g := by
  intro g hg
  have inv := reach_inv t fs h g hg
  exact ⟨rootNodes_of_inv t g inv, baseOf_none_of_inv t g inv, inv.trunkMem⟩

/-- Witness for claim C8 (amended) at a concrete completed invocation. -/
theorem claim_c8_amended_witness :
    rootNodes ⟨[("main", { sha := "A" })], []⟩ = ["main"] ∧
    baseOf ⟨[("main", { sha := "A" })], []⟩ "main" = none ∧
    "main" ∈ nodeKeys ⟨[("main", { sha := "A" })], []⟩ :=
  claim_c8_amended "main" (runFile envR1 none Act.postCommit [] 1)
    (ReachableFrom.step envR1 Act.postCommit [] 1 none ReachableFrom.init rfl)
    ⟨[("main", { sha := "A" })], []⟩ (by decide)
